import Mathlib

/-!
Verification of the ECDSA / RFC6979 core of btclib (`btclib/dsa.py`,
`btclib/rfc6979.py`) against its specification.

The two core source files are embedded faithfully below.  The curve
arithmetic provider (`curve.py`, `curvemult.py`, `numbertheory.py`), the
byte utilities (`utils.py`) and the DER codec (`der.py`) are not part of
the core sources; the specification declares them external collaborators
and describes their contracts, so they are modelled from the spec (each
such definition carries a `Modelled from the spec:` doc comment).
All definitions are executable: loops in the source are given explicit
fuel, exceptions become `Except`, and Python integers become `Nat`/`Int`
with explicit modular reduction.
-/

namespace Btclib

/-! ### Kernel-reducible arithmetic helpers -/

/-- Binary exponentiation in a monoid with explicit structural fuel, so that
the kernel can evaluate it (no well-founded recursion). -/
def powM {M : Type} [Monoid M] : Nat → M → Nat → M
  | 0, _, _ => 1
  | f+1, x, e =>
    if e = 0 then 1
    else
      let s := powM f (x*x) (e/2)
      if e % 2 = 1 then x * s else s

theorem powM_eq {M : Type} [Monoid M] :
    ∀ (f : Nat) (x : M) (e : Nat), e < 2 ^ f → powM f x e = x ^ e := by
  intro f
  induction f with
  | zero =>
    intro x e he
    interval_cases e
    simp [powM]
  | succ f ih =>
    intro x e he
    by_cases h0 : e = 0
    · simp [powM, h0]
    · have hdiv : e / 2 < 2 ^ f := by
        apply Nat.div_lt_of_lt_mul
        rw [pow_succ] at he
        omega
      have hrec := ih (x*x) (e/2) hdiv
      have hsq : (x*x) ^ (e/2) = x ^ (2 * (e/2)) := by
        rw [← pow_two, ← pow_mul]
      have hmod := Nat.div_add_mod e 2
      rcases Nat.mod_two_eq_zero_or_one e with h2 | h2
      · have : 2 * (e / 2) = e := by omega
        simp only [powM, h0, if_false, h2]
        rw [hrec, hsq, this]
        simp
      · have : e = 2 * (e / 2) + 1 := by omega
        simp only [powM, h0, if_false, h2, if_true]
        rw [hrec, hsq, ← pow_succ' x (2 * (e/2)), ← this]

/-- Binary exponentiation, fuel instantiated so that it is always enough. -/
def pow' {M : Type} [Monoid M] (x : M) (e : Nat) : M := powM (e+1) x e

theorem pow'_eq {M : Type} [Monoid M] (x : M) (e : Nat) : pow' x e = x ^ e :=
  powM_eq (e+1) x e (lt_trans (Nat.lt_two_pow e) (by simpa using Nat.pow_lt_pow_succ one_lt_two))

/-- Bit length with structural fuel (`int.bit_length` in Python). -/
def bitLenF : Nat → Nat → Nat
  | 0, _ => 0
  | f+1, v => if v = 0 then 0 else bitLenF f (v / 2) + 1

/-- Modelled from the spec: the number of bits of the curve order
(`ec.nlen = ec.n.bit_length()` in the missing `curve.py`). -/
def bitLen (v : Nat) : Nat := bitLenF v v

/-- Modelled from the spec: `int.to_bytes(length, 'big')` — the big-endian
fixed-width byte encoding used by the nonce generator (step 1 of §4.2). -/
def natToBE : Nat → Nat → List Nat
  | 0, _ => []
  | l+1, v => natToBE l (v / 256) ++ [v % 256]

/-- Modelled from the spec: `int.from_bytes(o, 'big')` — big-endian bytes to
integer, used by the digest-to-scalar reducer (§4.1). -/
def beToNat (o : List Nat) : Nat := o.foldl (fun acc byte => acc * 256 + byte) 0

/-- UTF-8 encoding of a text message (`msg.encode()` in the source). -/
def utf8 (s : String) : List Nat := s.toUTF8.toList.map (fun b => b.toNat)

/-! ### Curve parameters and the curve arithmetic provider

The provider is an external collaborator of the core (spec §2, §6); its code
is not among the core sources, so it is modelled from the spec: affine
short-Weierstrass arithmetic `y² = x³ + a·x + b` over the prime field of
`p` elements, with the affine pair `(x, 0)` as the sentinel for the point
at infinity (spec §3 "Point"; `dsa.py` tests `P[1] == 0` for infinity). -/

/-- Curve parameters (spec §3): field modulus `p`, group order `n`,
cofactor `h`, byte size `nsize` of the order, Weierstrass coefficients
`a`, `b` and the generator `(Gx, Gy)`. -/
structure CurveParams where
  p : Nat
  n : Nat
  h : Nat
  nsize : Nat
  a : Nat
  b : Nat
  Gx : Nat
  Gy : Nat

/-- An affine point, as in the source (`Point = Tuple[int, int]`): a pair of
field elements; `y = 0` is the sentinel for the point at infinity. -/
def Pt (E : CurveParams) : Type := ZMod E.p × ZMod E.p

instance (E : CurveParams) : DecidableEq (Pt E) :=
  inferInstanceAs (DecidableEq (ZMod E.p × ZMod E.p))

/-- Modelled from the spec: the sentinel point at infinity. -/
def inf (E : CurveParams) : Pt E := (1, 0)

/-- The generator point of the curve. -/
def GE (E : CurveParams) : Pt E := ((E.Gx : ZMod E.p), (E.Gy : ZMod E.p))

/-- Modelled from the spec: inverse in the field of `p` elements, computed by
Fermat's little theorem (the provider's moduli `p` and `n` are prime). -/
def zinv {m : Nat} (x : ZMod m) : ZMod m := pow' x (m - 2)

/-- Modelled from the spec: `mod_inv(a, m)` of the missing `numbertheory.py`
— the modular inverse of `a` modulo the (prime) modulus `m`. -/
def mod_inv (a m : Nat) : Nat := (zinv (a : ZMod m)).val

/-- Modelled from the spec: chord-tangent addition of affine points on the
short Weierstrass curve, with the `y = 0` sentinel as neutral element. -/
def pAdd (E : CurveParams) (P Q : Pt E) : Pt E :=
  if P.2 = 0 then Q
  else if Q.2 = 0 then P
  else if P.1 = Q.1 then
    if P.2 = -Q.2 then inf E
    else
      let L := (3 * P.1 ^ 2 + (E.a : ZMod E.p)) * zinv (2 * P.2)
      let x := L ^ 2 - P.1 - Q.1
      (x, L * (P.1 - x) - P.2)
  else
    let L := (Q.2 - P.2) * zinv (Q.1 - P.1)
    let x := L ^ 2 - P.1 - Q.1
    (x, L * (P.1 - x) - P.2)

/-- Modelled from the spec: scalar point multiplication `k·P` (the provider's
`_mult_jac`; Jacobian coordinates are an internal optimization the spec says
to treat transparently, so the model is affine). -/
def pMul (E : CurveParams) : Nat → Pt E → Pt E
  | 0, _ => inf E
  | k+1, P => pAdd E P (pMul E k P)

/-- Modelled from the spec: `ec.opposite(Q)` — negation of an affine point. -/
def opposite (E : CurveParams) (P : Pt E) : Pt E :=
  if P.2 = 0 then P else (P.1, -P.2)

/-- Modelled from the spec: double scalar multiplication `u·P + v·Q`
(the provider's `_double_mult`/`double_mult`); scalars are taken modulo the
group order `n` (spec §4.4 step 4, §4.5 step 2). -/
def doubleMult (E : CurveParams) (u : Int) (P : Pt E) (v : Int) (Q : Pt E) : Pt E :=
  pAdd E (pMul E (u % (E.n : Int)).toNat P) (pMul E (v % (E.n : Int)).toNat Q)

/-- Modelled from the spec: `ec.y_odd(x, odd)` — derive the y-coordinate with
the requested parity for a given x, if `x` is a valid curve x-coordinate. -/
def yRoot (E : CurveParams) (x : ZMod E.p) (odd : Bool) : Option (ZMod E.p) :=
  ((List.range E.p).map (fun t : Nat => (t : ZMod E.p))).find?
    (fun y => decide (y ^ 2 = x ^ 3 + (E.a : ZMod E.p) * x + (E.b : ZMod E.p)) &&
      (decide (y.val % 2 = 1) == odd))

/-- Modelled from the spec: `ec.is_on_curve` — the sentinel at infinity is a
valid Point (spec §3), any other pair must satisfy the curve equation. -/
def is_on_curve (E : CurveParams) (P : Pt E) : Bool :=
  decide (P.2 = 0) ||
    decide (P.2 ^ 2 = P.1 ^ 3 + (E.a : ZMod E.p) * P.1 + (E.b : ZMod E.p))

/-! ### Errors, messages, signature and public key inputs -/

/-- The failure kinds raised by the embedded code (spec §7 error taxonomy).
`fuelOut` models non-termination of the RFC6979 loops (the Python loop would
simply keep running); `external` is reserved for failures of the abstract
external collaborators (DER codec, point deserialization). -/
inductive Err
  | invalidRange
  | rZero
  | sZero
  | infinitePubKey
  | notOnCurve
  | assertInf
  | verificationFailed
  | overflow
  | fuelOut
  | external
  deriving DecidableEq

instance {ε α : Type} [DecidableEq ε] [DecidableEq α] : DecidableEq (Except ε α) := fun x y =>
  match x, y with
  | .error a, .error b =>
    if h : a = b then .isTrue (by rw [h]) else .isFalse (fun hh => h (by injection hh))
  | .error _, .ok _ => .isFalse (fun hh => Except.noConfusion hh)
  | .ok _, .error _ => .isFalse (fun hh => Except.noConfusion hh)
  | .ok a, .ok b =>
    if h : a = b then .isTrue (by rw [h]) else .isFalse (fun hh => h (by injection hh))

/-- A message, as accepted by the entry points: a text string or bytes
(`String = Union[str, bytes]` in the source). -/
inductive Msg
  | text (s : String)
  | bytes (b : List Nat)

/-- `if isinstance(msg, str): msg = msg.encode()` — the byte view of a
message. -/
def msgBytes : Msg → List Nat
  | .text s => utf8 s
  | .bytes b => b

/-- A signature argument: a raw `(r, s)` pair or a DER byte string
(`DSASig = Union[Tuple[int, int], Octets]` in the source). -/
inductive Sig
  | tup (r s : Nat)
  | der (o : List Nat)

/-- A public key argument: an affine point or a serialized octet string
(`Union[Point, Octets]` in the source). -/
inductive PK (E : CurveParams)
  | pt (P : Pt E)
  | octets (o : List Nat)

/-- The type of the external DER deserializer (`der.deserialize`, an external
collaborator per spec §6): octets to `(r, s, optional sighash)` or a
failure. -/
def DerDes := List Nat → Except Err ((Nat × Nat) × Option (List Nat))

/-- The type of the external point deserializer (`point_from_octets`). -/
def PtOct (E : CurveParams) := List Nat → Except Err (Pt E)

/-! ### Digest-to-scalar reducer (spec §4.1; `utils.py` is not among the core
sources, so these are modelled from the spec) -/

/-- Modelled from the spec: `_int_from_bits` — interpret the leftmost
`min(digest_bits, order_bits)` bits of the digest as a big-endian integer,
truncating at the bit level (spec §4.1). -/
def _int_from_bits (E : CurveParams) (o : List Nat) : Nat :=
  let i := beToNat o
  let blen := 8 * o.length
  let nlen := bitLen E.n
  if blen ≤ nlen then i else i >>> (blen - nlen)

/-- Modelled from the spec: `int_from_bits` — the bit-level truncation of
`_int_from_bits` followed by reduction modulo the group order. -/
def int_from_bits (E : CurveParams) (o : List Nat) : Nat :=
  _int_from_bits E o % E.n

/-- Modelled from the spec: `int_from_prvkey` — validate a private key as an
integer in `[1, n-1]` (spec §4.3 step 2). -/
def int_from_prvkey (E : CurveParams) (q : Nat) : Except Err Nat :=
  if 0 < q ∧ q < E.n then .ok q else .error .invalidRange

/-! ### Python float semantics of `ec.n / 2`

`_sign` (dsa.py line 113) compares `s` with `ec.n / 2`, which in Python is
*float* (binary64) division.  The comparison `s > ec.n / 2` of an `int`
with a `float` is exact, so the observable behaviour is determined by the
binary64 value nearest to `n/2`.  `lowSHalfDouble2 n` returns *twice* that
binary64 value (an integer, since the value is a multiple of 1/2), so the
source's test `s > ec.n / 2` is embedded as `2 * s > lowSHalfDouble2 n`.
Round-to-nearest, ties-to-even, 53-bit significand; exact for `n < 2^54`;
overflow to infinity (`n ≥ ~2^1025`) is outside the modelled range. -/
def lowSHalfDouble2 (n : Nat) : Nat :=
  if n < 2 ^ 54 then n
  else
    let L := bitLen n - 1
    let e := L - 53
    let u := n / 2 ^ (e + 1)
    let rem := n % 2 ^ (e + 1)
    let w :=
      if 2 * rem > 2 ^ (e + 1) then u + 1
      else if 2 * rem < 2 ^ (e + 1) then u
      else if u % 2 = 0 then u else u + 1
    w * 2 ^ (e + 1)

/-! ### RFC6979 deterministic nonce generation (`rfc6979.py` lines 67-96)

`hmacF key msg` stands for `hmac.new(key, msg, hf).digest()` and `hsize` for
`hf().digest_size`; HMAC and the hash are external (spec §6), hence abstract
parameters.  The two unbounded `while` loops get explicit fuel; running out
of fuel models non-termination. -/

/-- The type of the abstract HMAC function built from the hash `hf`. -/
def HmacF := List Nat → List Nat → List Nat

/-- The inner `while len(T) < ec.nsize` accumulation loop (3.2.h.1/h.2). -/
def fillT (hmacF : HmacF) (K : List Nat) (nsize : Nat) :
    Nat → List Nat → List Nat → Option (List Nat × List Nat)
  | 0, V, T => if nsize ≤ T.length then some (T, V) else none
  | f+1, V, T =>
    if nsize ≤ T.length then some (T, V)
    else
      let V' := hmacF K V
      fillT hmacF K nsize f V' (T ++ V')

/-- The outer `while True` candidate loop (3.2.h). -/
def nonceLoop (E : CurveParams) (hmacF : HmacF) :
    Nat → List Nat → List Nat → Except Err Nat
  | 0, _, _ => .error .fuelOut
  | f+1, K, V =>
    match fillT hmacF K E.nsize E.nsize V [] with
    | none => .error .fuelOut
    | some (T, V₁) =>
      let k := _int_from_bits E T
      if 0 < k ∧ k < E.n then .ok k
      else
        let K₁ := hmacF K (V₁ ++ [0])
        let V₂ := hmacF K₁ V₁
        nonceLoop E hmacF f K₁ V₂

/-- `_rfc6979(c, q, ec, hf)`: the deterministic ephemeral key (rfc6979.py
lines 67-96).  `q.to_bytes`/`c.to_bytes` raise `OverflowError` when the value
does not fit `nsize` bytes, modelled by the leading range checks. -/
def _rfc6979 (E : CurveParams) (hmacF : HmacF) (hsize fuel : Nat) (c q : Nat) :
    Except Err Nat :=
  if 256 ^ E.nsize ≤ q then .error .overflow
  else if 256 ^ E.nsize ≤ c then .error .overflow
  else
    let bprv := natToBE E.nsize q
    let bc := natToBE E.nsize c
    let bprvbm := bprv ++ bc
    let V := List.replicate hsize 1
    let K := List.replicate hsize 0
    let K₁ := hmacF K (V ++ [0] ++ bprvbm)
    let V₁ := hmacF K₁ V
    let K₂ := hmacF K₁ (V₁ ++ [1] ++ bprvbm)
    let V₂ := hmacF K₂ V₁
    nonceLoop E hmacF fuel K₂ V₂

/-- The nonce generator as the specification words it (spec §4.2 steps 1-5):
encode `d` and `c` as `nsize` big-endian bytes and concatenate as
`seed_material`; initialize `V` to `hash_len` 0x01 bytes and `K` to
`hash_len` 0x00 bytes; two HMAC update rounds with separator bytes 0x00 and
0x01; then accumulate `V`-blocks until at least `nsize` bytes and return the
first bit-truncated candidate in `[1, n-1]`.  Stated for comparison with the
source-embedded `_rfc6979`. -/
def rfc6979_spec (E : CurveParams) (hmacF : HmacF) (hsize fuel : Nat) (c d : Nat) :
    Except Err Nat :=
  if 256 ^ E.nsize ≤ d then .error .overflow
  else if 256 ^ E.nsize ≤ c then .error .overflow
  else
    let seed_material := natToBE E.nsize d ++ natToBE E.nsize c
    let V0 := List.replicate hsize 1
    let K0 := List.replicate hsize 0
    let K1 := hmacF K0 (V0 ++ [0] ++ seed_material)
    let V1 := hmacF K1 V0
    let K2 := hmacF K1 (V1 ++ [1] ++ seed_material)
    let V2 := hmacF K2 V1
    nonceLoop E hmacF fuel K2 V2

/-! ### ECDSA (`dsa.py`) -/

/-- `_check_sig(r, s, ec)` (dsa.py lines 248-257): both components must lie
in `[1, n-1]`. -/
def _check_sig (E : CurveParams) (r s : Nat) : Except Err Unit :=
  if ¬(0 < r ∧ r < E.n) then .error .invalidRange
  else if ¬(0 < s ∧ s < E.n) then .error .invalidRange
  else .ok ()

/-- `_sign(c, q, k, ec)` (dsa.py lines 93-116): the core signing routine.
`R = k·G`; `r = R.x mod n` (nonzero); `s = k⁻¹(c + r·q) mod n` (nonzero);
then the low-s branch `if s > ec.n / 2: s = ec.n - s`, where `ec.n / 2` is
Python float division (see `lowSHalfDouble2`). -/
def _sign (E : CurveParams) (c q k : Nat) : Except Err (Nat × Nat) :=
  let RJ := pMul E k (GE E)
  let Rx := RJ.1.val
  let r := Rx % E.n
  if r = 0 then .error .rZero
  else
    let s := mod_inv k E.n * (c + r * q) % E.n
    if s = 0 then .error .sZero
    else
      let s₁ := if 2 * s > lowSHalfDouble2 E.n then E.n - s else s
      .ok (r, s₁)

/-- `sign(msg, q, k, ec, hf)` (dsa.py lines 51-90): hash the message, reduce
the digest, validate the private key, derive the nonce via RFC6979 when none
is supplied, validate the nonce range, and delegate to `_sign`. -/
def sign (E : CurveParams) (hmacF : HmacF) (hsize : Nat)
    (hf : List Nat → List Nat) (fuel : Nat) (msg : Msg) (q : Nat)
    (k? : Option Nat) : Except Err (Nat × Nat) :=
  let m := msgBytes msg
  let mhd := hf m
  let c := int_from_bits E mhd
  match int_from_prvkey E q with
  | .error e => .error e
  | .ok d =>
    match (match k? with
           | none => _rfc6979 E hmacF hsize fuel c d
           | some k => .ok k) with
    | .error e => .error e
    | .ok k =>
      if ¬(0 < k ∧ k < E.n) then .error .invalidRange
      else _sign E c d k

/-- The nonce that a `sign` call resolves to: the explicit one if supplied,
otherwise the RFC6979 derivation (dsa.py lines 84-85). -/
def nonceUsed (E : CurveParams) (hmacF : HmacF) (hsize : Nat)
    (hf : List Nat → List Nat) (fuel : Nat) (msg : Msg) (q : Nat)
    (k? : Option Nat) : Except Err Nat :=
  match k? with
  | some k => .ok k
  | none => _rfc6979 E hmacF hsize fuel (int_from_bits E (hf (msgBytes msg))) q

/-- `_verhlp(c, P, r, s, ec)` (dsa.py lines 163-181): the core verification
helper.  Fails if the public key is the point at infinity (`P[1] == 0`);
computes `w = s⁻¹ mod n`, `u = c·w`, `v = r·w`, `R = v·P + u·G`; asserts `R`
finite; accepts iff `r = R.x mod n`. -/
def _verhlp (E : CurveParams) (c : Nat) (P : Pt E) (r s : Nat) :
    Except Err Unit :=
  if P.2 = 0 then .error .infinitePubKey
  else
    let w := mod_inv s E.n
    let u := c * w
    let v := r * w
    let RJ := doubleMult E (v : Int) P (u : Int) (GE E)
    if RJ.2 = 0 then .error .assertInf
    else
      let x := RJ.1.val % E.n
      if r = x then .ok () else .error .verificationFailed

/-- `_verify(msg, P, sig, ec, hf)` (dsa.py lines 132-160): the strict
verifier.  Byte view of the message; signature branch (`_check_sig` for a
pair, DER deserialization for octets); digest reduction; public key branch
(`require_on_curve` for a point, `point_from_octets` for octets); then
`_verhlp`. -/
def _verify (E : CurveParams) (derDes : DerDes) (ptoct : PtOct E)
    (hf : List Nat → List Nat) (msg : Msg) (P : PK E) (sig : Sig) :
    Except Err Unit :=
  let m := msgBytes msg
  match (match sig with
         | .tup r s =>
           match _check_sig E r s with
           | .error e => .error e
           | .ok _ => .ok (r, s)
         | .der o =>
           match derDes o with
           | .error e => .error e
           | .ok ((r, s), _) => .ok (r, s) : Except Err (Nat × Nat)) with
  | .error e => .error e
  | .ok (r, s) =>
    let mhd := hf m
    let c := int_from_bits E mhd
    match (match P with
           | .pt P =>
             if is_on_curve E P then .ok P else .error .notOnCurve
           | .octets o => ptoct o : Except Err (Pt E)) with
    | .error e => .error e
    | .ok P' => _verhlp E c P' r s

/-- `verify(msg, P, sig, ec, hf)` (dsa.py lines 119-129): the boolean entry
point — `try: _verify(...) except Exception: return False else: return
True`. -/
def verify (E : CurveParams) (derDes : DerDes) (ptoct : PtOct E)
    (hf : List Nat → List Nat) (msg : Msg) (P : PK E) (sig : Sig) : Bool :=
  match _verify E derDes ptoct hf msg P sig with
  | .ok _ => true
  | .error _ => false

/-- One iteration of the recovery loop of `_pubkey_recovery` (dsa.py lines
222-244), for the candidate x-coordinate `x = (r + j·n) mod p`: derive the
even root (skip the whole iteration if `x` is not a valid x-coordinate),
then test the candidate keys obtained from the even root and from its
opposite, silently dropping any that fails `_verhlp`. -/
def recCandidates (E : CurveParams) (c r s : Nat) (r1s r1e : Int) (j : Nat) :
    List (Pt E) :=
  let x : ZMod E.p := ((r + j * E.n : Nat) : ZMod E.p)
  match yRoot E x false with
  | none => []
  | some ye =>
    let R : Pt E := (x, ye)
    let Q₁ := doubleMult E r1s R r1e (GE E)
    let l₁ := match _verhlp E c Q₁ r s with
              | .ok _ => [Q₁]
              | .error _ => []
    let R₂ := opposite E R
    let Q₂ := doubleMult E r1s R₂ r1e (GE E)
    let l₂ := match _verhlp E c Q₂ r s with
              | .ok _ => [Q₂]
              | .error _ => []
    l₁ ++ l₂

/-- `_pubkey_recovery(c, r, s, ec)` (dsa.py lines 210-245): precompute
`r1 = r⁻¹ mod n`, `r1s = r1·s`, `r1e = -r1·c`, and accumulate the verifying
candidates for `j` in `[0, h-1]`. -/
def _pubkey_recovery (E : CurveParams) (c r s : Nat) : List (Pt E) :=
  let r1 := mod_inv r E.n
  let r1s : Int := (r1 : Int) * (s : Int)
  let r1e : Int := -((r1 : Int) * (c : Int))
  (List.range E.h).flatMap (recCandidates E c r s r1s r1e)

/-- `pubkey_recovery(msg, sig, ec, hf)` (dsa.py lines 184-207): hash and
reduce the message, check/deserialize the signature, and delegate to
`_pubkey_recovery`. -/
def pubkey_recovery (E : CurveParams) (derDes : DerDes)
    (hf : List Nat → List Nat) (msg : Msg) (sig : Sig) :
    Except Err (List (Pt E)) :=
  let m := msgBytes msg
  let mhd := hf m
  let c := int_from_bits E mhd
  match (match sig with
         | .tup r s =>
           match _check_sig E r s with
           | .error e => .error e
           | .ok _ => .ok (r, s)
         | .der o =>
           match derDes o with
           | .error e => .error e
           | .ok ((r, s), _) => .ok (r, s) : Except Err (Nat × Nat)) with
  | .error e => .error e
  | .ok (r, s) => .ok (_pubkey_recovery E c r s)

/-! ### Concrete curves -/

/-- The secp256k1 parameters (`curves.py`, as quoted by the spec: the default
curve of every entry point). -/
def secp256k1 : CurveParams where
  p := 0xFFFFFFFFFFFFFFFFFFFFFFFFFFFFFFFFFFFFFFFFFFFFFFFFFFFFFFFEFFFFFC2F
  n := 0xFFFFFFFFFFFFFFFFFFFFFFFFFFFFFFFEBAAEDCE6AF48A03BBFD25E8CD0364141
  h := 1
  nsize := 32
  a := 0
  b := 7
  Gx := 0x79BE667EF9DCBBAC55A06295CE870B07029BFCDB2DCE28D959F2815B16F81798
  Gy := 0x483ADA7726A3C4655DA4FBFC0E1108A8FD17B448A68554199C47D08FFB10D4B8

/-- A small test curve `y² = x³ + 2x + 7` over `GF(11)`: 7 points (prime
order, cofactor 1, no point with `y = 0`), generator `(6, 2)`.  Used to
instantiate theorems with hypotheses on concrete inputs. -/
def E1 : CurveParams where
  p := 11
  n := 7
  h := 1
  nsize := 1
  a := 2
  b := 7
  Gx := 6
  Gy := 2

/-- A stub hash function returning a constant digest (the hash is an
abstract external parameter; this instantiates it for concrete runs). -/
def constBytes (o : List Nat) : List Nat → List Nat := fun _ => o

/-- A stub DER deserializer for concrete runs (the codec is external). -/
def derNone : DerDes := fun _ => .error .external

/-- A stub point deserializer for concrete runs. -/
def ptoctNone (E : CurveParams) : PtOct E := fun _ => .error .external

/-! ### The curve as a Mathlib Weierstrass curve

To settle the algebraic claims the tuple arithmetic above is related to the
nonsingular-point group of Mathlib's `WeierstrassCurve.Affine`. -/

/-- The short Weierstrass curve `y² = x³ + a·x + b` of the parameters. -/
def WE (E : CurveParams) : WeierstrassCurve.Affine (ZMod E.p) where
  a₁ := 0
  a₂ := 0
  a₃ := 0
  a₄ := (E.a : ZMod E.p)
  a₆ := (E.b : ZMod E.p)

instance {R : Type} [CommRing R] [DecidableEq R] (W : WeierstrassCurve.Affine R)
    (x y : R) : Decidable (W.Equation x y) :=
  decidable_of_iff _ (W.equation_iff' x y).symm

instance {R : Type} [CommRing R] [DecidableEq R] (W : WeierstrassCurve.Affine R)
    (x y : R) : Decidable (W.Nonsingular x y) :=
  decidable_of_iff _ (W.nonsingular_iff' x y).symm

/-- A tuple that is a finite, on-curve point (not the infinity sentinel). -/
def strictPt (E : CurveParams) (P : Pt E) : Prop :=
  P.2 ≠ 0 ∧ (WE E).Equation P.1 P.2

/-- A tuple the provider can produce: the sentinel or a finite curve point. -/
def goodPt (E : CurveParams) (P : Pt E) : Prop :=
  P = inf E ∨ strictPt E P

/-- Abstraction of a tuple to a Mathlib nonsingular point: tuples with
`y = 0` (the sentinel) map to the point at infinity. -/
def toP (E : CurveParams) (P : Pt E) : (WE E).Point :=
  if h : P.2 ≠ 0 ∧ (WE E).Nonsingular P.1 P.2 then .some h.2 else .zero

/-- The coordinates of a nonsingular point ((1, 0) at infinity, matching the
sentinel). -/
def coordsOf {R : Type} [CommRing R] {W : WeierstrassCurve.Affine R} :
    W.Point → R × R
  | .zero => (1, 0)
  | @WeierstrassCurve.Affine.Point.some _ _ _ x y _ => (x, y)

theorem WE_a₁ (E : CurveParams) : (WE E).a₁ = 0 := rfl

theorem WE_a₂ (E : CurveParams) : (WE E).a₂ = 0 := rfl

theorem WE_a₃ (E : CurveParams) : (WE E).a₃ = 0 := rfl

theorem WE_a₄ (E : CurveParams) : (WE E).a₄ = (E.a : ZMod E.p) := rfl

theorem WE_a₆ (E : CurveParams) : (WE E).a₆ = (E.b : ZMod E.p) := rfl

theorem negY_WE (E : CurveParams) (x y : ZMod E.p) : (WE E).negY x y = -y := by
  simp [WeierstrassCurve.Affine.negY, WE]

theorem equation_WE (E : CurveParams) (x y : ZMod E.p) :
    (WE E).Equation x y ↔
      y ^ 2 = x ^ 3 + (E.a : ZMod E.p) * x + (E.b : ZMod E.p) := by
  rw [WeierstrassCurve.Affine.equation_iff]
  simp only [WE]
  constructor <;> intro h <;> linear_combination h

theorem Δ_WE (E : CurveParams) :
    (WE E).Δ = -16 * (4 * (E.a : ZMod E.p) ^ 3 + 27 * (E.b : ZMod E.p) ^ 2) := by
  simp only [WeierstrassCurve.Δ, WeierstrassCurve.b₂, WeierstrassCurve.b₄,
    WeierstrassCurve.b₆, WeierstrassCurve.b₈, WE]
  ring

theorem two_ne_zero_of_Δ {E : CurveParams} (hΔ : (WE E).Δ ≠ 0) :
    (2 : ZMod E.p) ≠ 0 := by
  intro h2
  apply hΔ
  rw [Δ_WE]
  have h16 : (16 : ZMod E.p) = 2 * 8 := by norm_num
  rw [h16, h2]
  ring

theorem zinv_eq {m : Nat} [Fact m.Prime] (hm : m ≠ 2) (x : ZMod m) :
    zinv x = x⁻¹ := by
  have hp := (Fact.out : m.Prime)
  have h2m := hp.two_le
  rw [zinv, pow'_eq]
  by_cases hx : x = 0
  · subst hx
    rw [inv_zero, zero_pow]
    omega
  · have h1 : x ^ (m - 1) = 1 := ZMod.pow_card_sub_one_eq_one hx
    have hmul : x ^ (m - 2) * x = 1 := by
      rw [← pow_succ x (m - 2)]
      have he : m - 2 + 1 = m - 1 := by omega
      rw [he, h1]
    exact eq_inv_of_mul_eq_one_left hmul

theorem toP_eq_some {E : CurveParams} {P : Pt E} (hy : P.2 ≠ 0)
    (h : (WE E).Nonsingular P.1 P.2) : toP E P = .some h :=
  dif_pos ⟨hy, h⟩

theorem toP_inf (E : CurveParams) : toP E (inf E) = 0 := by
  rw [toP, dif_neg]
  · rfl
  · rintro ⟨h, -⟩
    exact h rfl

theorem toP_of_y_eq_zero {E : CurveParams} {P : Pt E} (hy : P.2 = 0) :
    toP E P = 0 := by
  rw [toP, dif_neg]
  · rfl
  · rintro ⟨h, -⟩
    exact h hy

theorem strict_of_good {E : CurveParams} {P : Pt E} (hP : goodPt E P)
    (hy : P.2 ≠ 0) : strictPt E P := by
  rcases hP with h | h
  · exact absurd (by rw [h]; rfl) hy
  · exact h

theorem goodPt_inf (E : CurveParams) : goodPt E (inf E) := Or.inl rfl

theorem p_ne_two_of_Δ {E : CurveParams} (hΔ : (WE E).Δ ≠ 0) : E.p ≠ 2 := by
  intro h
  apply two_ne_zero_of_Δ hΔ
  have h0 : ((2 : ℕ) : ZMod E.p) = 0 := by
    rw [← h]
    exact ZMod.natCast_self E.p
  exact_mod_cast h0

/-- Tuple addition agrees with the Mathlib group law on good tuples, and
produces a good tuple (the latter needs the no-two-torsion hypothesis
`hno2`, which makes the `y = 0` sentinel unambiguous). -/
theorem pAdd_bridge {E : CurveParams} [Fact E.p.Prime]
    (hΔ : (WE E).Δ ≠ 0) (hno2 : ∀ x : ZMod E.p, ¬ (WE E).Equation x 0)
    {P Q : Pt E} (hP : goodPt E P) (hQ : goodPt E Q) :
    goodPt E (pAdd E P Q) ∧ toP E (pAdd E P Q) = toP E P + toP E Q := by
  have hp2 : E.p ≠ 2 := p_ne_two_of_Δ hΔ
  by_cases hPy : P.2 = 0
  · have hadd : pAdd E P Q = Q := by rw [pAdd, if_pos hPy]
    rw [hadd, toP_of_y_eq_zero hPy, zero_add]
    exact ⟨hQ, rfl⟩
  by_cases hQy : Q.2 = 0
  · have hadd : pAdd E P Q = P := by rw [pAdd, if_neg hPy, if_pos hQy]
    rw [hadd, toP_of_y_eq_zero hQy, add_zero]
    exact ⟨hP, rfl⟩
  have hPs := strict_of_good hP hPy
  have hQs := strict_of_good hQ hQy
  have h₁ : (WE E).Nonsingular P.1 P.2 := (WE E).nonsingular_of_Δ_ne_zero hPs.2 hΔ
  have h₂ : (WE E).Nonsingular Q.1 Q.2 := (WE E).nonsingular_of_Δ_ne_zero hQs.2 hΔ
  have htP : toP E P = .some h₁ := toP_eq_some hPy h₁
  have htQ : toP E Q = .some h₂ := toP_eq_some hQy h₂
  by_cases hx : P.1 = Q.1
  · by_cases hy : P.2 = -Q.2
    · have hadd : pAdd E P Q = inf E := by
        rw [pAdd, if_neg hPy, if_neg hQy, if_pos hx, if_pos hy]
      have hy' : P.2 = (WE E).negY Q.1 Q.2 := by rw [negY_WE]; exact hy
      rw [hadd, toP_inf, htP, htQ,
        WeierstrassCurve.Affine.Point.add_of_Y_eq hx hy']
      exact ⟨goodPt_inf E, rfl⟩
    · -- tangent case
      have hy' : P.2 ≠ (WE E).negY Q.1 Q.2 := by rw [negY_WE]; exact hy
      obtain ⟨L, hLs⟩ : ∃ L, L = (3 * P.1 ^ 2 + (E.a : ZMod E.p)) * zinv (2 * P.2) :=
        ⟨_, rfl⟩
      have hslope : L = (WE E).slope P.1 Q.1 P.2 Q.2 := by
        rw [hLs, WeierstrassCurve.Affine.slope_of_Y_ne hx hy', zinv_eq hp2,
          negY_WE, div_eq_mul_inv, WE_a₂, WE_a₄, WE_a₁]
        congr 1
        · ring
        · congr 1
          ring
      have hadd : pAdd E P Q =
          (L ^ 2 - P.1 - Q.1, L * (P.1 - (L ^ 2 - P.1 - Q.1)) - P.2) := by
        rw [pAdd, if_neg hPy, if_neg hQy, if_pos hx, if_neg hy, ← hLs]
      have hx3 : L ^ 2 - P.1 - Q.1
          = (WE E).addX P.1 Q.1 ((WE E).slope P.1 Q.1 P.2 Q.2) := by
        rw [← hslope]
        simp only [WeierstrassCurve.Affine.addX, WE_a₁, WE_a₂]
        ring
      have hy3 : L * (P.1 - (L ^ 2 - P.1 - Q.1)) - P.2
          = (WE E).addY P.1 Q.1 P.2 ((WE E).slope P.1 Q.1 P.2 Q.2) := by
        rw [← hslope]
        simp only [WeierstrassCurve.Affine.addY, WeierstrassCurve.Affine.negAddY,
          WeierstrassCurve.Affine.negY, WeierstrassCurve.Affine.addX,
          WE_a₁, WE_a₂, WE_a₃]
        ring
      have hcoords : pAdd E P Q =
          ((WE E).addX P.1 Q.1 ((WE E).slope P.1 Q.1 P.2 Q.2),
            (WE E).addY P.1 Q.1 P.2 ((WE E).slope P.1 Q.1 P.2 Q.2)) :=
        hadd.trans (Prod.ext hx3 hy3)
      have heq3 := WeierstrassCurve.Affine.equation_add hPs.2 hQs.2 (fun _ => hy')
      have hns3 := (WE E).nonsingular_of_Δ_ne_zero heq3 hΔ
      have hyne3 : (WE E).addY P.1 Q.1 P.2 ((WE E).slope P.1 Q.1 P.2 Q.2) ≠ 0 := by
        intro h0
        rw [h0] at heq3
        exact hno2 _ heq3
      refine ⟨Or.inr ⟨?_, ?_⟩, ?_⟩
      · rw [hcoords]
        exact hyne3
      · rw [hcoords]
        exact heq3
      · rw [hcoords, htP, htQ, WeierstrassCurve.Affine.Point.add_of_Y_ne hy']
        exact toP_eq_some hyne3 hns3
  · -- secant case
    have hxy : P.1 = Q.1 → P.2 ≠ (WE E).negY Q.1 Q.2 := fun h => absurd h hx
    obtain ⟨L, hLs⟩ : ∃ L, L = (Q.2 - P.2) * zinv (Q.1 - P.1) := ⟨_, rfl⟩
    have hslope : L = (WE E).slope P.1 Q.1 P.2 Q.2 := by
      rw [hLs, WeierstrassCurve.Affine.slope_of_X_ne hx, zinv_eq hp2,
        div_eq_mul_inv,
        show P.2 - Q.2 = -(Q.2 - P.2) from by ring,
        show P.1 - Q.1 = -(Q.1 - P.1) from by ring, inv_neg, neg_mul_neg]
    have hadd : pAdd E P Q =
        (L ^ 2 - P.1 - Q.1, L * (P.1 - (L ^ 2 - P.1 - Q.1)) - P.2) := by
      rw [pAdd, if_neg hPy, if_neg hQy, if_neg hx, ← hLs]
    have hx3 : L ^ 2 - P.1 - Q.1
        = (WE E).addX P.1 Q.1 ((WE E).slope P.1 Q.1 P.2 Q.2) := by
      rw [← hslope]
      simp only [WeierstrassCurve.Affine.addX, WE_a₁, WE_a₂]
      ring
    have hy3 : L * (P.1 - (L ^ 2 - P.1 - Q.1)) - P.2
        = (WE E).addY P.1 Q.1 P.2 ((WE E).slope P.1 Q.1 P.2 Q.2) := by
      rw [← hslope]
      simp only [WeierstrassCurve.Affine.addY, WeierstrassCurve.Affine.negAddY,
        WeierstrassCurve.Affine.negY, WeierstrassCurve.Affine.addX,
        WE_a₁, WE_a₂, WE_a₃]
      ring
    have hcoords : pAdd E P Q =
        ((WE E).addX P.1 Q.1 ((WE E).slope P.1 Q.1 P.2 Q.2),
          (WE E).addY P.1 Q.1 P.2 ((WE E).slope P.1 Q.1 P.2 Q.2)) :=
      hadd.trans (Prod.ext hx3 hy3)
    have heq3 := WeierstrassCurve.Affine.equation_add hPs.2 hQs.2 hxy
    have hns3 := (WE E).nonsingular_of_Δ_ne_zero heq3 hΔ
    have hyne3 : (WE E).addY P.1 Q.1 P.2 ((WE E).slope P.1 Q.1 P.2 Q.2) ≠ 0 := by
      intro h0
      rw [h0] at heq3
      exact hno2 _ heq3
    refine ⟨Or.inr ⟨?_, ?_⟩, ?_⟩
    · rw [hcoords]
      exact hyne3
    · rw [hcoords]
      exact heq3
    · rw [hcoords, htP, htQ, WeierstrassCurve.Affine.Point.add_of_X_ne hx]
      exact toP_eq_some hyne3 hns3

/-- Scalar multiplication agrees with `•` on the Mathlib point group. -/
theorem pMul_bridge {E : CurveParams} [Fact E.p.Prime]
    (hΔ : (WE E).Δ ≠ 0) (hno2 : ∀ x : ZMod E.p, ¬ (WE E).Equation x 0)
    {P : Pt E} (hP : goodPt E P) (k : Nat) :
    goodPt E (pMul E k P) ∧ toP E (pMul E k P) = k • toP E P := by
  induction k with
  | zero =>
    refine ⟨goodPt_inf E, ?_⟩
    rw [pMul, toP_inf, zero_nsmul]
  | succ k ih =>
    have hb := pAdd_bridge hΔ hno2 hP ih.1
    refine ⟨hb.1, ?_⟩
    rw [pMul, hb.2, ih.2, succ_nsmul, add_comm]

theorem doubleMult_bridge {E : CurveParams} [Fact E.p.Prime]
    (hΔ : (WE E).Δ ≠ 0) (hno2 : ∀ x : ZMod E.p, ¬ (WE E).Equation x 0)
    {P Q : Pt E} (hP : goodPt E P) (hQ : goodPt E Q) (u v : Int) :
    goodPt E (doubleMult E u P v Q) ∧
      toP E (doubleMult E u P v Q) =
        (u % (E.n : Int)).toNat • toP E P + (v % (E.n : Int)).toNat • toP E Q := by
  have h1 := pMul_bridge hΔ hno2 hP ((u % (E.n : Int)).toNat)
  have h2 := pMul_bridge hΔ hno2 hQ ((v % (E.n : Int)).toNat)
  have hb := pAdd_bridge hΔ hno2 h1.1 h2.1
  exact ⟨hb.1, by rw [doubleMult, hb.2, h1.2, h2.2]⟩

theorem coordsOf_some {R : Type} [CommRing R] {W : WeierstrassCurve.Affine R}
    {x y : R} (h : W.Nonsingular x y) :
    coordsOf (WeierstrassCurve.Affine.Point.some h) = (x, y) := rfl

theorem coordsOf_toP_strict {E : CurveParams} {P : Pt E}
    (hy : P.2 ≠ 0) (h : (WE E).Nonsingular P.1 P.2) :
    coordsOf (toP E P) = (P.1, P.2) := by
  rw [toP_eq_some hy h]
  rfl

theorem strict_of_toP_ne_zero {E : CurveParams} {P : Pt E}
    (hP : goodPt E P) (h : toP E P ≠ 0) : strictPt E P :=
  hP.resolve_left (fun he => h (by rw [he, toP_inf]))

theorem eq_of_toP_eq {E : CurveParams} [Fact E.p.Prime]
    (hΔ : (WE E).Δ ≠ 0) {P Q : Pt E}
    (hPs : strictPt E P) (hQs : strictPt E Q) (h : toP E P = toP E Q) :
    P = Q := by
  have hc := congrArg coordsOf h
  rw [coordsOf_toP_strict hPs.1 ((WE E).nonsingular_of_Δ_ne_zero hPs.2 hΔ),
    coordsOf_toP_strict hQs.1 ((WE E).nonsingular_of_Δ_ne_zero hQs.2 hΔ),
    Prod.mk.injEq] at hc
  exact Prod.ext hc.1 hc.2

theorem nsmul_mod {E : CurveParams} [Fact E.p.Prime]
    (hord0 : E.n • toP E (GE E) = 0) (k : Nat) :
    k • toP E (GE E) = (k % E.n) • toP E (GE E) := by
  conv_lhs => rw [← Nat.div_add_mod k E.n]
  rw [add_nsmul, mul_nsmul, hord0, nsmul_zero, zero_add]

theorem nsmul_G_congr {E : CurveParams} [Fact E.p.Prime]
    (hord0 : E.n • toP E (GE E) = 0) {k₁ k₂ : Nat}
    (hmod : ((k₁ : ZMod E.n)) = (k₂ : ZMod E.n)) :
    k₁ • toP E (GE E) = k₂ • toP E (GE E) := by
  have h := (ZMod.natCast_eq_natCast_iff k₁ k₂ E.n).mp hmod
  rw [nsmul_mod hord0 k₁, nsmul_mod hord0 k₂, h]

theorem nsmul_G_eq_zero_iff {E : CurveParams} [Fact E.p.Prime]
    (hn : E.n.Prime) (hord0 : E.n • toP E (GE E) = 0)
    (hGne : toP E (GE E) ≠ 0) (k : Nat) :
    k • toP E (GE E) = 0 ↔ E.n ∣ k := by
  have h1 : addOrderOf (toP E (GE E)) ∣ E.n := addOrderOf_dvd_of_nsmul_eq_zero hord0
  rcases (Nat.Prime.eq_one_or_self_of_dvd hn _ h1) with h | h
  · exact absurd (AddMonoid.addOrderOf_eq_one_iff.mp h) hGne
  · rw [← addOrderOf_dvd_iff_nsmul_eq_zero, h]

theorem int_emod_toNat_cast {n : Nat} [NeZero n] (a : Int) :
    (((a % (n : Int)).toNat : Nat) : ZMod n) = ((a : Int) : ZMod n) := by
  have hn : (0 : Int) < (n : Int) := by
    exact_mod_cast Nat.pos_of_ne_zero (NeZero.ne n)
  have h0 : (0 : Int) ≤ a % (n : Int) := Int.emod_nonneg a (by omega)
  have h1 : (((a % (n : Int)).toNat : Nat) : ZMod n) = ((a % (n : Int) : Int) : ZMod n) := by
    rw [← Int.cast_natCast, Int.toNat_of_nonneg h0]
  rw [h1]
  conv_rhs => rw [← Int.emod_add_ediv a (n : Int)]
  push_cast
  simp [ZMod.natCast_self]

theorem mod_inv_cast {m : Nat} [Fact m.Prime] (hm : m ≠ 2) (a : Nat) :
    ((mod_inv a m : Nat) : ZMod m) = ((a : ZMod m))⁻¹ := by
  haveI : NeZero m := ⟨(Fact.out : m.Prime).ne_zero⟩
  rw [mod_inv, zinv_eq hm]
  exact ZMod.natCast_rightInverse _

theorem natCast_ne_zero_of_lt {n a : Nat} (h0 : a ≠ 0) (hlt : a < n) :
    (a : ZMod n) ≠ 0 := by
  rw [Ne, ZMod.natCast_zmod_eq_zero_iff_dvd]
  intro hdvd
  exact h0 (Nat.eq_zero_of_dvd_of_lt hdvd hlt)

/-- Everything `_sign E c d k = ok (r, s)` says about `r` and `s`. -/
theorem _sign_inv {E : CurveParams} {c d k r s : Nat}
    (h : _sign E c d k = .ok (r, s)) :
    r = (pMul E k (GE E)).1.val % E.n ∧ r ≠ 0 ∧
      mod_inv k E.n * (c + r * d) % E.n ≠ 0 ∧
      (s = mod_inv k E.n * (c + r * d) % E.n ∨
        s = E.n - mod_inv k E.n * (c + r * d) % E.n) := by
  simp only [_sign] at h
  split at h
  · exact absurd h (by simp)
  · split at h
    · exact absurd h (by simp)
    · rename_i h1 h2
      rw [Except.ok.injEq, Prod.mk.injEq] at h
      obtain ⟨hr, hs⟩ := h
      subst hr
      refine ⟨rfl, h1, h2, ?_⟩
      split at hs
      · right
        exact hs.symm
      · left
        exact hs.symm

/-- Core of the verify-after-sign and recovery claims: on a good curve, the
verification helper accepts the `(r, s)` pair produced by the signing core
for the public key `d·G`. -/
theorem verhlp_of_sign {E : CurveParams} [Fact E.p.Prime]
    (hΔ : (WE E).Δ ≠ 0) (hno2 : ∀ x : ZMod E.p, ¬ (WE E).Equation x 0)
    (hG : strictPt E (GE E)) (hordt : pMul E E.n (GE E) = inf E)
    (hn : E.n.Prime) (hn2 : E.n ≠ 2)
    {c d k r s : Nat} (hd0 : 0 < d) (hdn : d < E.n) (hk0 : 0 < k) (hkn : k < E.n)
    (hsig : _sign E c d k = .ok (r, s)) :
    _verhlp E c (pMul E d (GE E)) r s = .ok () := by
  haveI : Fact E.n.Prime := ⟨hn⟩
  haveI : NeZero E.n := ⟨hn.ne_zero⟩
  have hnpos : 0 < E.n := hn.pos
  have hGgood : goodPt E (GE E) := Or.inr hG
  have hGns : (WE E).Nonsingular (GE E).1 (GE E).2 :=
    (WE E).nonsingular_of_Δ_ne_zero hG.2 hΔ
  have hGp : toP E (GE E) ≠ 0 := by
    rw [toP_eq_some hG.1 hGns]
    exact WeierstrassCurve.Affine.Point.some_ne_zero _
  have hord0 : E.n • toP E (GE E) = 0 := by
    have hb := pMul_bridge hΔ hno2 hGgood E.n
    rw [← hb.2, hordt, toP_inf]
  obtain ⟨hr, hrne, hs0ne, hscases⟩ := _sign_inv hsig
  obtain ⟨hRt_good, hRt_toP⟩ := pMul_bridge hΔ hno2 hGgood k
  have hkGp_ne : k • toP E (GE E) ≠ 0 := by
    rw [Ne, nsmul_G_eq_zero_iff hn hord0 hGp]
    intro hdvd
    exact absurd (Nat.eq_zero_of_dvd_of_lt hdvd hkn) (by omega)
  have hkG_ne : toP E (pMul E k (GE E)) ≠ 0 := by
    rw [hRt_toP]
    exact hkGp_ne
  have hRt_strict := strict_of_toP_ne_zero hRt_good hkG_ne
  obtain ⟨hPgood, hPtoP⟩ := pMul_bridge hΔ hno2 hGgood d
  have hPne : toP E (pMul E d (GE E)) ≠ 0 := by
    rw [hPtoP, Ne, nsmul_G_eq_zero_iff hn hord0 hGp]
    intro hdvd
    exact absurd (Nat.eq_zero_of_dvd_of_lt hdvd hdn) (by omega)
  have hPstrict := strict_of_toP_ne_zero hPgood hPne
  have hrn : r < E.n := by
    rw [hr]
    exact Nat.mod_lt _ hnpos
  have hs₀lt : mod_inv k E.n * (c + r * d) % E.n < E.n := Nat.mod_lt _ hnpos
  have hsne : s ≠ 0 := by rcases hscases with h | h <;> omega
  have hslt : s < E.n := by rcases hscases with h | h <;> omega
  have hkne : (k : ZMod E.n) ≠ 0 := natCast_ne_zero_of_lt (by omega) hkn
  have hsne' : (s : ZMod E.n) ≠ 0 := natCast_ne_zero_of_lt hsne hslt
  -- the value of s as an element of ZMod n, up to sign
  have hsv : ((s : ZMod E.n) = (k : ZMod E.n)⁻¹ * ((c : ZMod E.n) + r * d)) ∨
      ((s : ZMod E.n) = -((k : ZMod E.n)⁻¹ * ((c : ZMod E.n) + r * d))) := by
    have hs₀cast : ((mod_inv k E.n * (c + r * d) % E.n : Nat) : ZMod E.n)
        = (k : ZMod E.n)⁻¹ * ((c : ZMod E.n) + r * d) := by
      rw [ZMod.natCast_mod]
      push_cast
      rw [mod_inv_cast hn2]
    rcases hscases with h | h
    · left
      rw [h, hs₀cast]
    · right
      rw [h, Nat.cast_sub hs₀lt.le, ZMod.natCast_self, zero_sub, hs₀cast]
  -- the scalar the verifier computes, as an element of ZMod n
  have hA : ((c : ZMod E.n) + r * d = k * s) ∨
      ((c : ZMod E.n) + r * d = -(k * s)) := by
    rcases hsv with h | h
    · left
      rw [h, ← mul_assoc, mul_inv_cancel₀ hkne, one_mul]
    · right
      rw [h, mul_neg, ← mul_assoc, mul_inv_cancel₀ hkne, one_mul, neg_neg]
  have hcast₁ : ((((r * mod_inv s E.n : Nat) : Int) % (E.n : Int)).toNat : ZMod E.n)
      = (r : ZMod E.n) * (s : ZMod E.n)⁻¹ := by
    rw [int_emod_toNat_cast, Int.cast_natCast]
    push_cast
    rw [mod_inv_cast hn2]
  have hcast₂ : ((((c * mod_inv s E.n : Nat) : Int) % (E.n : Int)).toNat : ZMod E.n)
      = (c : ZMod E.n) * (s : ZMod E.n)⁻¹ := by
    rw [int_emod_toNat_cast, Int.cast_natCast]
    push_cast
    rw [mod_inv_cast hn2]
  -- the point computed by the verifier
  obtain ⟨hRJgood, hRJtoP⟩ := doubleMult_bridge hΔ hno2 hPgood hGgood
    ((r * mod_inv s E.n : Nat) : Int) ((c * mod_inv s E.n : Nat) : Int)
  have hmain : toP E (doubleMult E ((r * mod_inv s E.n : Nat) : Int)
        (pMul E d (GE E)) ((c * mod_inv s E.n : Nat) : Int) (GE E))
      = k • toP E (GE E) ∨
      toP E (doubleMult E ((r * mod_inv s E.n : Nat) : Int)
        (pMul E d (GE E)) ((c * mod_inv s E.n : Nat) : Int) (GE E))
      = -(k • toP E (GE E)) := by
    rw [hRJtoP, hPtoP, ← mul_nsmul, ← add_nsmul]
    rcases hA with h | h
    · left
      apply nsmul_G_congr hord0
      rw [Nat.cast_add, Nat.cast_mul, hcast₁, hcast₂]
      calc (d : ZMod E.n) * ((r : ZMod E.n) * (s : ZMod E.n)⁻¹)
            + (c : ZMod E.n) * (s : ZMod E.n)⁻¹
          = ((c : ZMod E.n) + r * d) * (s : ZMod E.n)⁻¹ := by ring
        _ = (k : ZMod E.n) * ((s : ZMod E.n) * (s : ZMod E.n)⁻¹) := by
            rw [h, mul_assoc]
        _ = (k : ZMod E.n) := by rw [mul_inv_cancel₀ hsne', mul_one]
    · right
      have hnegsmul : (E.n - k) • toP E (GE E) = -(k • toP E (GE E)) := by
        have hsum : (E.n - k) + k = E.n := by omega
        have h2 := add_nsmul (toP E (GE E)) (E.n - k) k
        rw [hsum, hord0] at h2
        exact eq_neg_of_add_eq_zero_left h2.symm
      rw [← hnegsmul]
      apply nsmul_G_congr hord0
      rw [Nat.cast_add, Nat.cast_mul, hcast₁, hcast₂, Nat.cast_sub hkn.le,
        ZMod.natCast_self, zero_sub]
      calc (d : ZMod E.n) * ((r : ZMod E.n) * (s : ZMod E.n)⁻¹)
            + (c : ZMod E.n) * (s : ZMod E.n)⁻¹
          = ((c : ZMod E.n) + r * d) * (s : ZMod E.n)⁻¹ := by ring
        _ = -((k : ZMod E.n) * ((s : ZMod E.n) * (s : ZMod E.n)⁻¹)) := by
            rw [h, neg_mul, mul_assoc]
        _ = -(k : ZMod E.n) := by rw [mul_inv_cancel₀ hsne', mul_one]
  have hRJne : toP E (doubleMult E ((r * mod_inv s E.n : Nat) : Int)
      (pMul E d (GE E)) ((c * mod_inv s E.n : Nat) : Int) (GE E)) ≠ 0 := by
    rcases hmain with h | h <;> rw [h]
    · exact hkGp_ne
    · exact neg_ne_zero.mpr hkGp_ne
  have hRJstrict := strict_of_toP_ne_zero hRJgood hRJne
  have hRtns := (WE E).nonsingular_of_Δ_ne_zero hRt_strict.2 hΔ
  have hx1 : (doubleMult E ((r * mod_inv s E.n : Nat) : Int)
      (pMul E d (GE E)) ((c * mod_inv s E.n : Nat) : Int) (GE E)).1
      = (pMul E k (GE E)).1 := by
    rcases hmain with h | h
    · have heq := eq_of_toP_eq hΔ hRJstrict hRt_strict (by rw [h, hRt_toP])
      rw [heq]
    · have h2 : toP E (doubleMult E ((r * mod_inv s E.n : Nat) : Int)
          (pMul E d (GE E)) ((c * mod_inv s E.n : Nat) : Int) (GE E))
          = .some (WeierstrassCurve.Affine.nonsingular_neg hRtns) := by
        rw [h, ← WeierstrassCurve.Affine.Point.neg_some hRtns,
          ← toP_eq_some hRt_strict.1 hRtns, hRt_toP]
      have hc := congrArg coordsOf h2
      rw [coordsOf_toP_strict hRJstrict.1
        ((WE E).nonsingular_of_Δ_ne_zero hRJstrict.2 hΔ)] at hc
      have hfst := congrArg Prod.fst hc
      simpa [coordsOf] using hfst
  -- now walk through _verhlp
  simp only [_verhlp]
  rw [if_neg hPstrict.1, if_neg hRJstrict.1, if_pos]
  rw [hx1, ← hr]

/-- The generator facts derived from the hypotheses on the curve: the
generator maps to a nonzero group point killed by `n`. -/
theorem Gp_facts {E : CurveParams} [Fact E.p.Prime]
    (hΔ : (WE E).Δ ≠ 0) (hno2 : ∀ x : ZMod E.p, ¬ (WE E).Equation x 0)
    (hG : strictPt E (GE E)) (hordt : pMul E E.n (GE E) = inf E) :
    toP E (GE E) ≠ 0 ∧ E.n • toP E (GE E) = 0 := by
  constructor
  · rw [toP_eq_some hG.1 ((WE E).nonsingular_of_Δ_ne_zero hG.2 hΔ)]
    exact WeierstrassCurve.Affine.Point.some_ne_zero _
  · have hb := pMul_bridge hΔ hno2 (Or.inr hG) E.n
    rw [← hb.2, hordt, toP_inf]

/-- A scalar multiple `d·G` with `d` in `[1, n-1]` is a finite curve point
mapping to `d • G`. -/
theorem pMul_G_strict {E : CurveParams} [Fact E.p.Prime]
    (hΔ : (WE E).Δ ≠ 0) (hno2 : ∀ x : ZMod E.p, ¬ (WE E).Equation x 0)
    (hG : strictPt E (GE E)) (hordt : pMul E E.n (GE E) = inf E)
    (hn : E.n.Prime) {d : Nat} (hd0 : 0 < d) (hdn : d < E.n) :
    strictPt E (pMul E d (GE E)) ∧
      toP E (pMul E d (GE E)) = d • toP E (GE E) ∧
      toP E (pMul E d (GE E)) ≠ 0 := by
  obtain ⟨hGp, hord0⟩ := Gp_facts hΔ hno2 hG hordt
  obtain ⟨hgood, htoP⟩ := pMul_bridge hΔ hno2 (Or.inr hG) d
  have hne : toP E (pMul E d (GE E)) ≠ 0 := by
    rw [htoP, Ne, nsmul_G_eq_zero_iff hn hord0 hGp]
    intro hdvd
    exact absurd (Nat.eq_zero_of_dvd_of_lt hdvd hdn) (by omega)
  exact ⟨strict_of_toP_ne_zero hgood hne, htoP, hne⟩

theorem nsmul_compl {E : CurveParams} [Fact E.p.Prime]
    (hord0 : E.n • toP E (GE E) = 0) {k : Nat} (hk : k ≤ E.n) :
    (E.n - k) • toP E (GE E) = -(k • toP E (GE E)) := by
  have hsum : (E.n - k) + k = E.n := by omega
  have h2 := add_nsmul (toP E (GE E)) (E.n - k) k
  rw [hsum, hord0] at h2
  exact eq_neg_of_add_eq_zero_left h2.symm

theorem opp_strict {E : CurveParams} {P : Pt E} (hPs : strictPt E P) :
    strictPt E (P.1, -P.2) := by
  refine ⟨neg_ne_zero.mpr hPs.1, ?_⟩
  rw [equation_WE]
  rw [show (((P.1, -P.2) : Pt E)).2 ^ 2 = P.2 ^ 2 from by simp [neg_sq]]
  exact (equation_WE E P.1 P.2).mp hPs.2

theorem toP_opp {E : CurveParams} [Fact E.p.Prime]
    (hΔ : (WE E).Δ ≠ 0) {P : Pt E} (hPs : strictPt E P) :
    toP E (P.1, -P.2) = -(toP E P) := by
  have h := (WE E).nonsingular_of_Δ_ne_zero hPs.2 hΔ
  have hyne : (WE E).negY P.1 P.2 ≠ 0 := by
    rw [negY_WE]
    exact neg_ne_zero.mpr hPs.1
  rw [toP_eq_some hPs.1 h, WeierstrassCurve.Affine.Point.neg_some]
  rw [show -P.2 = (WE E).negY P.1 P.2 from (negY_WE E P.1 P.2).symm]
  exact toP_eq_some (P := (P.1, (WE E).negY P.1 P.2)) hyne
    (WeierstrassCurve.Affine.nonsingular_neg h)

theorem is_on_curve_of_strict {E : CurveParams} {P : Pt E}
    (h : strictPt E P) : is_on_curve E P = true := by
  simp only [is_on_curve, Bool.or_eq_true, decide_eq_true_eq]
  right
  exact (equation_WE E P.1 P.2).mp h.2

/-- Everything a successful `sign` run says: the private key was validated,
some nonce `k` in `[1, n-1]` was resolved, and `_sign` succeeded with it. -/
theorem sign_inv_full {E : CurveParams} {hm : HmacF} {hsize : Nat}
    {hf : List Nat → List Nat} {fuel : Nat} {msg : Msg} {q : Nat}
    {ko : Option Nat} {r s : Nat}
    (hsig : sign E hm hsize hf fuel msg q ko = .ok (r, s)) :
    (0 < q ∧ q < E.n) ∧
      ∃ k, nonceUsed E hm hsize hf fuel msg q ko = .ok k ∧
        (0 < k ∧ k < E.n) ∧
        _sign E (int_from_bits E (hf (msgBytes msg))) q k = .ok (r, s) := by
  simp only [sign] at hsig
  by_cases hqr : 0 < q ∧ q < E.n
  · have hpe : int_from_prvkey E q = .ok q := by
      simp [int_from_prvkey, hqr]
    simp only [hpe] at hsig
    refine ⟨hqr, ?_⟩
    cases ko with
    | none =>
      rcases hke : _rfc6979 E hm hsize fuel (int_from_bits E (hf (msgBytes msg))) q
          with e | k
      · simp only [hke] at hsig
        exact absurd hsig (by simp)
      · simp only [hke] at hsig
        by_cases hkr : 0 < k ∧ k < E.n
        · rw [if_neg (not_not_intro hkr)] at hsig
          exact ⟨k, by simpa [nonceUsed] using hke, hkr, hsig⟩
        · rw [if_pos hkr] at hsig
          exact absurd hsig (by simp)
    | some k =>
      simp only [] at hsig
      by_cases hkr : 0 < k ∧ k < E.n
      · rw [if_neg (not_not_intro hkr)] at hsig
        exact ⟨k, by simp [nonceUsed], hkr, hsig⟩
      · rw [if_pos hkr] at hsig
        exact absurd hsig (by simp)
  · have hpe : int_from_prvkey E q = .error .invalidRange := by
      simp [int_from_prvkey, hqr]
    simp only [hpe] at hsig
    exact absurd hsig (by simp)

/-- Any nonce returned by the RFC6979 candidate loop lies in `[1, n-1]`. -/
theorem nonceLoop_range {E : CurveParams} {hm : HmacF} :
    ∀ (fuel : Nat) (K V : List Nat) {k : Nat},
      nonceLoop E hm fuel K V = .ok k → 0 < k ∧ k < E.n := by
  intro fuel
  induction fuel with
  | zero =>
    intro K V k h
    exact absurd h (by simp [nonceLoop])
  | succ f ih =>
    intro K V k h
    simp only [nonceLoop] at h
    split at h
    · exact absurd h (by simp)
    · split at h
      · rename_i hcond
        rw [Except.ok.injEq] at h
        exact h ▸ hcond
      · exact ih _ _ h

/-- Every point in the result of `_pubkey_recovery` passes `_verhlp`. -/
theorem _pubkey_recovery_mem {E : CurveParams} {c r s : Nat} {Q : Pt E}
    (h : Q ∈ _pubkey_recovery E c r s) : _verhlp E c Q r s = .ok () := by
  simp only [_pubkey_recovery, List.mem_flatMap] at h
  obtain ⟨j, -, hQ⟩ := h
  simp only [recCandidates] at hQ
  split at hQ
  · simp at hQ
  · rw [List.mem_append] at hQ
    rcases hQ with hQ | hQ <;>
    · split at hQ
      · rename_i hv
        rw [List.mem_singleton] at hQ
        rw [hQ, hv]
      · simp at hQ

/-- The provider's `y_odd x False` search succeeds on the x-coordinate of a
finite curve point and returns one of its two roots (the even one). -/
theorem yRoot_even {E : CurveParams} [Fact E.p.Prime] (hp2 : E.p ≠ 2)
    {P : Pt E} (hPs : strictPt E P) :
    ∃ ye, yRoot E P.1 false = some ye ∧ ye ≠ 0 ∧ (ye = P.2 ∨ ye = -P.2) := by
  haveI : NeZero E.p := ⟨(Fact.out : E.p.Prime).ne_zero⟩
  have hrhs : P.2 ^ 2 = P.1 ^ 3 + (E.a : ZMod E.p) * P.1 + (E.b : ZMod E.p) :=
    (equation_WE E P.1 P.2).mp hPs.2
  have hpodd : E.p % 2 = 1 :=
    Nat.odd_iff.mp ((Fact.out : E.p.Prime).odd_of_ne_two hp2)
  have hv0 : P.2.val ≠ 0 := fun h => hPs.1 ((ZMod.val_eq_zero P.2).mp h)
  have hvlt : P.2.val < E.p := ZMod.val_lt P.2
  have hvalneg : (-P.2).val = E.p - P.2.val := by
    rw [ZMod.neg_val, if_neg hPs.1]
  obtain ⟨y, hy2, hyeven⟩ :
      ∃ y : ZMod E.p, (y = P.2 ∨ y = -P.2) ∧ y.val % 2 = 0 := by
    rcases Nat.mod_two_eq_zero_or_one P.2.val with he | ho
    · exact ⟨P.2, Or.inl rfl, he⟩
    · refine ⟨-P.2, Or.inr rfl, ?_⟩
      rw [hvalneg]
      omega
  have hmem : y ∈ (List.range E.p).map (fun t : Nat => (t : ZMod E.p)) := by
    have hc : ((y.val : Nat) : ZMod E.p) = y := ZMod.natCast_rightInverse y
    rw [← hc]
    exact List.mem_map_of_mem (fun t => ((t : Nat) : ZMod E.p))
      (List.mem_range.mpr (ZMod.val_lt y))
  have hysq : y ^ 2 = P.2 ^ 2 := by
    rcases hy2 with h | h <;> rw [h]
    rw [neg_sq]
  have hpred : (decide (y ^ 2 = P.1 ^ 3 + (E.a : ZMod E.p) * P.1 + (E.b : ZMod E.p)) &&
      (decide (y.val % 2 = 1) == false)) = true := by
    rw [Bool.and_eq_true, decide_eq_true_eq]
    refine ⟨hysq.trans hrhs, ?_⟩
    rw [decide_eq_false (by omega)]
    rfl
  have hsome : (yRoot E P.1 false).isSome := by
    rw [yRoot, List.find?_isSome]
    exact ⟨y, hmem, hpred⟩
  obtain ⟨ye, hye⟩ := Option.isSome_iff_exists.mp hsome
  refine ⟨ye, hye, ?_, ?_⟩
  · have hp := List.find?_some hye
    rw [Bool.and_eq_true, decide_eq_true_eq] at hp
    intro h0
    rw [h0] at hp
    have : (0 : ZMod E.p) ^ 2 = P.2 ^ 2 := hp.1.trans hrhs.symm
    have hP2 : P.2 * P.2 = 0 := by
      have := this.symm
      rwa [pow_two, pow_two, zero_mul] at this
    exact hPs.1 (by rcases mul_eq_zero.mp hP2 with h | h <;> exact h)
  · have hp := List.find?_some hye
    rw [Bool.and_eq_true, decide_eq_true_eq] at hp
    have hsq : ye ^ 2 = P.2 ^ 2 := hp.1.trans hrhs.symm
    have hfac : (ye - P.2) * (ye + P.2) = 0 := by
      linear_combination hsq
    rcases mul_eq_zero.mp hfac with h | h
    · left
      exact sub_eq_zero.mp h
    · right
      exact eq_neg_of_add_eq_zero_left h

theorem int_from_prvkey_ok {E : CurveParams} {q d : Nat}
    (h : int_from_prvkey E q = .ok d) : d = q := by
  simp only [int_from_prvkey] at h
  split at h
  · injection h with h
    exact h.symm
  · exact absurd h (by simp)

/-! ### Claim theorems -/

/-- C4: nonce generation and signing are deterministic two-run properties:
two calls of the RFC6979 generator with identical `(c, d, curve, hf)` return
the identical nonce, and two calls of `sign` with identical inputs and no
explicit nonce return the identical pair; moreover `sign` without an
explicit nonce equals `sign` with the derived nonce passed explicitly.  The
embedding is a pure function of its inputs because the source consults no
entropy (only HMAC/hash evaluations), so both two-run equalities hold by
reflexivity. -/
theorem sign_deterministic (E : CurveParams) (hm : HmacF) (hsize : Nat)
    (hf : List Nat → List Nat) (fuel : Nat) (msg : Msg) (q c : Nat) :
    (_rfc6979 E hm hsize fuel c q = _rfc6979 E hm hsize fuel c q) ∧
      (sign E hm hsize hf fuel msg q none = sign E hm hsize hf fuel msg q none) ∧
      (∀ k, nonceUsed E hm hsize hf fuel msg q none = .ok k →
        sign E hm hsize hf fuel msg q none = sign E hm hsize hf fuel msg q (some k)) := by
  refine ⟨rfl, rfl, fun k hk => ?_⟩
  simp only [nonceUsed] at hk
  simp only [sign]
  rcases hpe : int_from_prvkey E q with e | d
  · simp only [hpe]
  · obtain rfl := int_from_prvkey_ok hpe
    simp only [hpe, hk]

/-- C5: the boolean `verify` entry point is total: for every input it
returns `true` exactly when the strict verifier `_verify` succeeds, and
every failure kind of `_verify` is converted into `false` — no error
escapes. -/
theorem verify_boolean_total (E : CurveParams) (dd : DerDes) (po : PtOct E)
    (hf : List Nat → List Nat) (msg : Msg) (P : PK E) (sig : Sig) :
    (verify E dd po hf msg P sig = true ∧
        _verify E dd po hf msg P sig = .ok ()) ∨
      (verify E dd po hf msg P sig = false ∧
        ∃ e, _verify E dd po hf msg P sig = .error e) := by
  rcases hv : _verify E dd po hf msg P sig with e | u
  · right
    exact ⟨by simp [verify, hv], e, rfl⟩
  · left
    cases u
    exact ⟨by simp [verify, hv], rfl⟩

/-- C6: the RFC6979 nonce generator coincides with the HMAC-DRBG
construction as worded by the spec (`rfc6979_spec`, §4.2 steps 1-5), and
every nonce it returns lies in `[1, n-1]`. -/
theorem rfc6979_matches_spec (E : CurveParams) (hm : HmacF)
    (hsize fuel c q : Nat) :
    _rfc6979 E hm hsize fuel c q = rfc6979_spec E hm hsize fuel c q ∧
      ∀ k, _rfc6979 E hm hsize fuel c q = .ok k → 0 < k ∧ k < E.n := by
  refine ⟨rfl, fun k hk => ?_⟩
  simp only [_rfc6979] at hk
  split at hk
  · exact absurd hk (by simp)
  · split at hk
    · exact absurd hk (by simp)
    · exact nonceLoop_range _ _ _ hk

/-- C7: `sign` with an explicit nonce outside `[1, n-1]` (for a valid
private key) fails with the invalid-range error; it never clamps the nonce
and never produces a signature. -/
theorem sign_rejects_bad_nonce (E : CurveParams) (hm : HmacF) (hsize : Nat)
    (hf : List Nat → List Nat) (fuel : Nat) (msg : Msg) {q k : Nat}
    (hq : 0 < q ∧ q < E.n) (hk : ¬(0 < k ∧ k < E.n)) :
    sign E hm hsize hf fuel msg q (some k) = .error .invalidRange := by
  have hpe : int_from_prvkey E q = .ok q := by
    simp [int_from_prvkey, hq]
  simp only [sign, hpe]
  rw [if_pos hk]

/-- C9: the public entry points accept a text message as well as a byte
message, and on a text message `m` each behaves exactly as on the UTF-8
encoding of `m`. -/
theorem string_message_utf8 (E : CurveParams) (dd : DerDes) (po : PtOct E)
    (hm : HmacF) (hsize : Nat) (hf : List Nat → List Nat) (fuel : Nat)
    (s : String) (q : Nat) (ko : Option Nat) (P : PK E) (sig : Sig) :
    sign E hm hsize hf fuel (.text s) q ko
        = sign E hm hsize hf fuel (.bytes (utf8 s)) q ko ∧
      _verify E dd po hf (.text s) P sig
        = _verify E dd po hf (.bytes (utf8 s)) P sig ∧
      verify E dd po hf (.text s) P sig
        = verify E dd po hf (.bytes (utf8 s)) P sig ∧
      pubkey_recovery E dd hf (.text s) sig
        = pubkey_recovery E dd hf (.bytes (utf8 s)) sig :=
  ⟨rfl, rfl, rfl, rfl⟩

/-- C10: the verification helper treats an affine pair with `y = 0` as the
point at infinity: for a structurally valid signature, the on-curve check of
`_verify` accepts `(x, 0)`, but `_verhlp` then raises the infinite-public-key
error, and the boolean `verify` returns `false`. -/
theorem pubkey_y_zero_infinite (E : CurveParams) (dd : DerDes) (po : PtOct E)
    (hf : List Nat → List Nat) (msg : Msg) (x : ZMod E.p) {r s : Nat}
    (hr : 0 < r ∧ r < E.n) (hs : 0 < s ∧ s < E.n) :
    is_on_curve E (x, 0) = true ∧
      _verify E dd po hf msg (.pt (x, 0)) (.tup r s) = .error .infinitePubKey ∧
      verify E dd po hf msg (.pt (x, 0)) (.tup r s) = false := by
  have hoc : is_on_curve E (x, 0) = true := by
    simp [is_on_curve]
  have hcs : _check_sig E r s = .ok () := by
    simp only [_check_sig, if_neg (not_not_intro hr), if_neg (not_not_intro hs)]
  have hv : _verify E dd po hf msg (.pt (x, 0)) (.tup r s)
      = .error .infinitePubKey := by
    simp only [_verify, hcs, hoc, if_true, _verhlp]
  exact ⟨hoc, hv, by simp [verify, hv]⟩

/-- C8: public key recovery errors only on structurally invalid signatures
(`r` or `s` outside `[1, n-1]`); on valid pairs it returns a list without
error; every returned candidate passes `_verhlp`, so when no point verifies
the result is the empty list — per-candidate failures are skipped, never
propagated. -/
theorem pubkey_recovery_error_policy (E : CurveParams) (dd : DerDes)
    (hf : List Nat → List Nat) (msg : Msg) (r s : Nat) :
    (¬(0 < r ∧ r < E.n) →
        pubkey_recovery E dd hf msg (.tup r s) = .error .invalidRange) ∧
      ((0 < r ∧ r < E.n) → ¬(0 < s ∧ s < E.n) →
        pubkey_recovery E dd hf msg (.tup r s) = .error .invalidRange) ∧
      ((0 < r ∧ r < E.n) → (0 < s ∧ s < E.n) →
        pubkey_recovery E dd hf msg (.tup r s)
          = .ok (_pubkey_recovery E (int_from_bits E (hf (msgBytes msg))) r s)) ∧
      (∀ c (Q : Pt E), Q ∈ _pubkey_recovery E c r s →
        _verhlp E c Q r s = .ok ()) ∧
      (∀ c, (∀ j ∈ List.range E.h, ∀ ye : ZMod E.p,
          yRoot E ((r + j * E.n : Nat) : ZMod E.p) false = some ye →
          _verhlp E c (doubleMult E (((mod_inv r E.n : Nat) : Int) * (s : Int))
              (((r + j * E.n : Nat) : ZMod E.p), ye)
              (-(((mod_inv r E.n : Nat) : Int) * (c : Int))) (GE E)) r s
            ≠ .ok () ∧
          _verhlp E c (doubleMult E (((mod_inv r E.n : Nat) : Int) * (s : Int))
              (opposite E (((r + j * E.n : Nat) : ZMod E.p), ye))
              (-(((mod_inv r E.n : Nat) : Int) * (c : Int))) (GE E)) r s
            ≠ .ok ()) →
        _pubkey_recovery E c r s = []) := by
  have hlast : ∀ c, (∀ j ∈ List.range E.h, ∀ ye : ZMod E.p,
      yRoot E ((r + j * E.n : Nat) : ZMod E.p) false = some ye →
      _verhlp E c (doubleMult E (((mod_inv r E.n : Nat) : Int) * (s : Int))
          (((r + j * E.n : Nat) : ZMod E.p), ye)
          (-(((mod_inv r E.n : Nat) : Int) * (c : Int))) (GE E)) r s
        ≠ .ok () ∧
      _verhlp E c (doubleMult E (((mod_inv r E.n : Nat) : Int) * (s : Int))
          (opposite E (((r + j * E.n : Nat) : ZMod E.p), ye))
          (-(((mod_inv r E.n : Nat) : Int) * (c : Int))) (GE E)) r s
        ≠ .ok ()) →
      _pubkey_recovery E c r s = [] := by
    intro c hall
    apply List.eq_nil_iff_forall_not_mem.mpr
    intro Q hQ
    simp only [_pubkey_recovery, List.mem_flatMap] at hQ
    obtain ⟨j, hj, hQ⟩ := hQ
    simp only [recCandidates] at hQ
    split at hQ
    · simp at hQ
    · rename_i xo ye hye
      obtain ⟨h1, h2⟩ := hall j hj ye hye
      rw [List.mem_append] at hQ
      rcases hQ with hQ | hQ
      · split at hQ
        · rename_i hv
          exact h1 hv
        · simp at hQ
      · split at hQ
        · rename_i hv
          exact h2 hv
        · simp at hQ
  refine ⟨?_, ?_, ?_, fun c Q hQ => _pubkey_recovery_mem hQ, hlast⟩
  · intro hrr
    have hcs : _check_sig E r s = .error .invalidRange := by
      simp only [_check_sig, if_pos hrr]
    simp only [pubkey_recovery, hcs]
  · intro hrr hss
    have hcs : _check_sig E r s = .error .invalidRange := by
      simp only [_check_sig, if_neg (not_not_intro hrr), if_pos hss]
    simp only [pubkey_recovery, hcs]
  · intro hrr hss
    have hcs : _check_sig E r s = .ok () := by
      simp only [_check_sig, if_neg (not_not_intro hrr), if_neg (not_not_intro hss)]
    simp only [pubkey_recovery, hcs]

/-- C2: verify-after-sign.  On a curve satisfying the provider's contract
(nonzero discriminant, no two-torsion, a generator that is a finite curve
point of prime order `n`), whenever `sign` succeeds — with the RFC6979
nonce or any explicit nonce — the boolean `verify` accepts the produced
`(r, s)` pair for the same message against the public key `q·G`. -/
theorem verify_after_sign {E : CurveParams} [Fact E.p.Prime]
    (hΔ : (WE E).Δ ≠ 0) (hno2 : ∀ x : ZMod E.p, ¬ (WE E).Equation x 0)
    (hG : strictPt E (GE E)) (hordt : pMul E E.n (GE E) = inf E)
    (hn : E.n.Prime) (hn2 : E.n ≠ 2)
    (dd : DerDes) (po : PtOct E) (hm : HmacF) (hsize : Nat)
    (hf : List Nat → List Nat) (fuel : Nat) (msg : Msg) {q : Nat}
    (ko : Option Nat) {r s : Nat}
    (hsig : sign E hm hsize hf fuel msg q ko = .ok (r, s)) :
    verify E dd po hf msg (.pt (pMul E q (GE E))) (.tup r s) = true := by
  obtain ⟨⟨hq0, hqn⟩, k, -, ⟨hk0, hkn⟩, hsg⟩ := sign_inv_full hsig
  have hnpos : 0 < E.n := hn.pos
  obtain ⟨hr, hrne, hs0ne, hscases⟩ := _sign_inv hsg
  have hs₀lt : mod_inv k E.n
      * (int_from_bits E (hf (msgBytes msg)) + r * q) % E.n < E.n :=
    Nat.mod_lt _ hnpos
  have hr0 : 0 < r := Nat.pos_of_ne_zero hrne
  have hrn : r < E.n := by
    rw [hr]
    exact Nat.mod_lt _ hnpos
  have hs0 : 0 < s := by rcases hscases with h | h <;> omega
  have hsn : s < E.n := by rcases hscases with h | h <;> omega
  have hcore := verhlp_of_sign hΔ hno2 hG hordt hn hn2 hq0 hqn hk0 hkn hsg
  obtain ⟨hPstrict, -, -⟩ := pMul_G_strict hΔ hno2 hG hordt hn hq0 hqn
  have hcs : _check_sig E r s = .ok () := by
    simp only [_check_sig,
      if_neg (not_not_intro (show 0 < r ∧ r < E.n from ⟨hr0, hrn⟩)),
      if_neg (not_not_intro (show 0 < s ∧ s < E.n from ⟨hs0, hsn⟩))]
  simp only [verify, _verify, hcs, is_on_curve_of_strict hPstrict, if_true, hcore]

/-- The `(r, s)` pair of a successful `_sign` satisfies
`c + r·d = ±(k·s)` in the scalar field. -/
theorem sign_A_relation {E : CurveParams} (hn : E.n.Prime) (hn2 : E.n ≠ 2)
    {c d k r s : Nat} (hk0 : 0 < k) (hkn : k < E.n)
    (hs0ne : mod_inv k E.n * (c + r * d) % E.n ≠ 0)
    (hscases : s = mod_inv k E.n * (c + r * d) % E.n ∨
      s = E.n - mod_inv k E.n * (c + r * d) % E.n) :
    ((c : ZMod E.n) + r * d = k * s) ∨
      ((c : ZMod E.n) + r * d = -((k : ZMod E.n) * s)) := by
  haveI : Fact E.n.Prime := ⟨hn⟩
  haveI : NeZero E.n := ⟨hn.ne_zero⟩
  have hnpos := hn.pos
  have hkne : (k : ZMod E.n) ≠ 0 := natCast_ne_zero_of_lt (by omega) hkn
  have hs₀lt : mod_inv k E.n * (c + r * d) % E.n < E.n := Nat.mod_lt _ hnpos
  have hs₀cast : ((mod_inv k E.n * (c + r * d) % E.n : Nat) : ZMod E.n)
      = (k : ZMod E.n)⁻¹ * ((c : ZMod E.n) + r * d) := by
    rw [ZMod.natCast_mod]
    push_cast
    rw [mod_inv_cast hn2]
  rcases hscases with h | h
  · left
    rw [h, hs₀cast, ← mul_assoc, mul_inv_cancel₀ hkne, one_mul]
  · right
    rw [h, Nat.cast_sub hs₀lt.le, ZMod.natCast_self, zero_sub, hs₀cast,
      mul_neg, ← mul_assoc, mul_inv_cancel₀ hkne, one_mul, neg_neg]

/-- The group point of a recovery candidate `r1s·R + r1e·G`. -/
theorem toP_cand {E : CurveParams} [Fact E.p.Prime]
    (hΔ : (WE E).Δ ≠ 0) (hno2 : ∀ x : ZMod E.p, ¬ (WE E).Equation x 0)
    (hG : strictPt E (GE E)) (hord0 : E.n • toP E (GE E) = 0)
    {R : Pt E} (hRgood : goodPt E R) {m : Nat}
    (hRtoP : toP E R = m • toP E (GE E)) (r1s r1e : Int) (t : Nat)
    (hcast : ((m * (r1s % (E.n : Int)).toNat + (r1e % (E.n : Int)).toNat : Nat)
        : ZMod E.n) = (t : ZMod E.n)) :
    toP E (doubleMult E r1s R r1e (GE E)) = t • toP E (GE E) := by
  obtain ⟨-, hb⟩ := doubleMult_bridge hΔ hno2 hRgood (Or.inr hG) r1s r1e
  rw [hb, hRtoP, ← mul_nsmul, ← add_nsmul]
  exact nsmul_G_congr hord0 hcast

/-- Core of the amended recovery claim: when the signing nonce's point has
`x(k·G) = r + j·n` for some `j < h` (the coverage condition; automatic for
`x(k·G) < n`), the signer's public key is in the recovery list. -/
theorem _pubkey_recovery_finds {E : CurveParams} [Fact E.p.Prime]
    (hΔ : (WE E).Δ ≠ 0) (hno2 : ∀ x : ZMod E.p, ¬ (WE E).Equation x 0)
    (hG : strictPt E (GE E)) (hordt : pMul E E.n (GE E) = inf E)
    (hn : E.n.Prime) (hn2 : E.n ≠ 2)
    {c d k r s : Nat} (hd0 : 0 < d) (hdn : d < E.n) (hk0 : 0 < k) (hkn : k < E.n)
    (hsg : _sign E c d k = .ok (r, s))
    (hcover : (pMul E k (GE E)).1.val / E.n < E.h) :
    pMul E d (GE E) ∈ _pubkey_recovery E c r s := by
  haveI : Fact E.n.Prime := ⟨hn⟩
  haveI : NeZero E.n := ⟨hn.ne_zero⟩
  haveI : NeZero E.p := ⟨(Fact.out : E.p.Prime).ne_zero⟩
  have hnpos : 0 < E.n := hn.pos
  have hp2 : E.p ≠ 2 := p_ne_two_of_Δ hΔ
  obtain ⟨hGp, hord0⟩ := Gp_facts hΔ hno2 hG hordt
  obtain ⟨hr, hrne, hs0ne, hscases⟩ := _sign_inv hsg
  have hr0 : 0 < r := Nat.pos_of_ne_zero hrne
  have hrn : r < E.n := by
    rw [hr]
    exact Nat.mod_lt _ hnpos
  have hs₀lt : mod_inv k E.n * (c + r * d) % E.n < E.n := Nat.mod_lt _ hnpos
  have hs0 : 0 < s := by rcases hscases with h | h <;> omega
  have hsn : s < E.n := by rcases hscases with h | h <;> omega
  obtain ⟨hRt_strict, hRt_toP, hRt_ne⟩ := pMul_G_strict hΔ hno2 hG hordt hn hk0 hkn
  obtain ⟨hPub_strict, hPub_toP, hPub_ne⟩ := pMul_G_strict hΔ hno2 hG hordt hn hd0 hdn
  have hverhlp := verhlp_of_sign hΔ hno2 hG hordt hn hn2 hd0 hdn hk0 hkn hsg
  have hrne' : (r : ZMod E.n) ≠ 0 := natCast_ne_zero_of_lt hrne hrn
  have hOppT_strict : strictPt E ((pMul E k (GE E)).1, -(pMul E k (GE E)).2) :=
    opp_strict hRt_strict
  have hOppT_toP : toP E ((pMul E k (GE E)).1, -(pMul E k (GE E)).2)
      = (E.n - k) • toP E (GE E) := by
    rw [toP_opp hΔ hRt_strict, hRt_toP, nsmul_compl hord0 hkn.le]
  -- the candidate x-coordinate at iteration j = x(kG) / n
  have hjx : r + (pMul E k (GE E)).1.val / E.n * E.n = (pMul E k (GE E)).1.val := by
    rw [hr]
    exact Nat.mod_add_div' _ _
  have hxcast : ((r + (pMul E k (GE E)).1.val / E.n * E.n : Nat) : ZMod E.p)
      = (pMul E k (GE E)).1 := by
    rw [hjx]
    exact ZMod.natCast_rightInverse _
  obtain ⟨ye, hye, hyene, hyecases⟩ := yRoot_even hp2 hRt_strict
  have hA := sign_A_relation hn hn2 hk0 hkn hs0ne hscases
  -- cast values of the two recovery scalars
  have hr1s : ((((mod_inv r E.n : Nat) : Int) * (s : Int) % (E.n : Int)).toNat
      : ZMod E.n) = (r : ZMod E.n)⁻¹ * s := by
    rw [int_emod_toNat_cast]
    push_cast
    rw [mod_inv_cast hn2]
  have hr1e : (((-(((mod_inv r E.n : Nat) : Int) * (c : Int))) % (E.n : Int)).toNat
      : ZMod E.n) = -((r : ZMod E.n)⁻¹ * c) := by
    rw [int_emod_toNat_cast]
    push_cast
    rw [mod_inv_cast hn2]
  -- the verifying candidate: for the sign σ in c + r·d = σ·k·s, the tuple
  -- with toP = (σ·k)·G maps to the public key
  have hkey : ∀ (R : Pt E), goodPt E R →
      (toP E R = k • toP E (GE E) ∧ (c : ZMod E.n) + r * d = k * s) ∨
      (toP E R = (E.n - k) • toP E (GE E) ∧
        (c : ZMod E.n) + r * d = -((k : ZMod E.n) * s)) →
      doubleMult E (((mod_inv r E.n : Nat) : Int) * (s : Int)) R
        (-(((mod_inv r E.n : Nat) : Int) * (c : Int))) (GE E) = pMul E d (GE E) := by
    intro R hRgood hcase
    have htoP : toP E (doubleMult E (((mod_inv r E.n : Nat) : Int) * (s : Int)) R
        (-(((mod_inv r E.n : Nat) : Int) * (c : Int))) (GE E))
        = d • toP E (GE E) := by
      rcases hcase with ⟨hRtoP', hrel⟩ | ⟨hRtoP', hrel⟩
      · apply toP_cand hΔ hno2 hG hord0 hRgood hRtoP'
        push_cast
        rw [hr1s, hr1e]
        calc (k : ZMod E.n) * ((r : ZMod E.n)⁻¹ * s) + -((r : ZMod E.n)⁻¹ * c)
            = (r : ZMod E.n)⁻¹ * ((k : ZMod E.n) * s - c) := by ring
          _ = (r : ZMod E.n)⁻¹ * ((r : ZMod E.n) * d) := by
              rw [← hrel]
              ring
          _ = ((r : ZMod E.n)⁻¹ * (r : ZMod E.n)) * d := by ring
          _ = (d : ZMod E.n) := by rw [inv_mul_cancel₀ hrne', one_mul]
      · apply toP_cand hΔ hno2 hG hord0 hRgood hRtoP'
        push_cast
        rw [hr1s, hr1e, Nat.cast_sub hkn.le, ZMod.natCast_self, zero_sub]
        calc -(k : ZMod E.n) * ((r : ZMod E.n)⁻¹ * s) + -((r : ZMod E.n)⁻¹ * c)
            = (r : ZMod E.n)⁻¹ * (-((k : ZMod E.n) * s) - c) := by ring
          _ = (r : ZMod E.n)⁻¹ * ((r : ZMod E.n) * d) := by
              rw [← hrel]
              ring
          _ = ((r : ZMod E.n)⁻¹ * (r : ZMod E.n)) * d := by ring
          _ = (d : ZMod E.n) := by rw [inv_mul_cancel₀ hrne', one_mul]
    have hQgood : goodPt E (doubleMult E (((mod_inv r E.n : Nat) : Int) * (s : Int)) R
        (-(((mod_inv r E.n : Nat) : Int) * (c : Int))) (GE E)) :=
      (doubleMult_bridge hΔ hno2 hRgood (Or.inr hG) _ _).1
    have hQne : toP E (doubleMult E (((mod_inv r E.n : Nat) : Int) * (s : Int)) R
        (-(((mod_inv r E.n : Nat) : Int) * (c : Int))) (GE E)) ≠ 0 := by
      rw [htoP, ← hPub_toP]
      exact hPub_ne
    exact eq_of_toP_eq hΔ (strict_of_toP_ne_zero hQgood hQne) hPub_strict
      (by rw [htoP, hPub_toP])
  -- now place the public key in the flat-mapped candidate list
  simp only [_pubkey_recovery, List.mem_flatMap]
  refine ⟨(pMul E k (GE E)).1.val / E.n, List.mem_range.mpr hcover, ?_⟩
  simp only [recCandidates, hxcast, hye]
  rcases hyecases with hyeq | hyeq
  · -- even root is the point itself
    have hR1 : (((pMul E k (GE E)).1, ye) : Pt E) = pMul E k (GE E) := by
      rw [hyeq]
      rfl
    have hR2 : opposite E ((pMul E k (GE E)).1, ye)
        = ((pMul E k (GE E)).1, -(pMul E k (GE E)).2) := by
      rw [hyeq, opposite, if_neg hRt_strict.1]
    rw [hR2, hR1]
    rcases hA with hrel | hrel
    · -- public key comes from the even root
      have hQ := hkey (pMul E k (GE E)) (Or.inr hRt_strict)
        (Or.inl ⟨hRt_toP, hrel⟩)
      rw [hQ, hverhlp]
      exact List.mem_append_left _ (List.mem_singleton.mpr rfl)
    · -- public key comes from the opposite root
      have hQ := hkey ((pMul E k (GE E)).1, -(pMul E k (GE E)).2)
        (Or.inr hOppT_strict) (Or.inr ⟨hOppT_toP, hrel⟩)
      rw [hQ, hverhlp]
      exact List.mem_append_right _ (List.mem_singleton.mpr rfl)
  · -- even root is the opposite point
    have hR1 : (((pMul E k (GE E)).1, ye) : Pt E)
        = ((pMul E k (GE E)).1, -(pMul E k (GE E)).2) := by
      rw [hyeq]
    have hR2 : opposite E ((pMul E k (GE E)).1, ye) = pMul E k (GE E) := by
      rw [hyeq, opposite, if_neg (neg_ne_zero.mpr hRt_strict.1), neg_neg]
      rfl
    rw [hR2, hR1]
    rcases hA with hrel | hrel
    · have hQ := hkey (pMul E k (GE E)) (Or.inr hRt_strict)
        (Or.inl ⟨hRt_toP, hrel⟩)
      rw [hQ, hverhlp]
      exact List.mem_append_right _ (List.mem_singleton.mpr rfl)
    · have hQ := hkey ((pMul E k (GE E)).1, -(pMul E k (GE E)).2)
        (Or.inr hOppT_strict) (Or.inr ⟨hOppT_toP, hrel⟩)
      rw [hQ, hverhlp]
      exact List.mem_append_left _ (List.mem_singleton.mpr rfl)

/-- C3 (amended): on a curve satisfying the provider's contract, whenever
`sign` succeeds and the nonce `k` it used satisfies the coverage condition
`x(k·G) = r + j·n` for some `j < h` (stated as `x(k·G)/n < h`; always true
when `x(k·G) < n`, which the unamended claim implicitly assumed), the
public key `q·G` is an element of the list returned by `pubkey_recovery`
for that message and signature. -/
theorem pubkey_recovery_finds_signer {E : CurveParams} [Fact E.p.Prime]
    (hΔ : (WE E).Δ ≠ 0) (hno2 : ∀ x : ZMod E.p, ¬ (WE E).Equation x 0)
    (hG : strictPt E (GE E)) (hordt : pMul E E.n (GE E) = inf E)
    (hn : E.n.Prime) (hn2 : E.n ≠ 2)
    (dd : DerDes) (hm : HmacF) (hsize : Nat) (hf : List Nat → List Nat)
    (fuel : Nat) (msg : Msg) {q k r s : Nat} (ko : Option Nat)
    (hko : nonceUsed E hm hsize hf fuel msg q ko = .ok k)
    (hsig : sign E hm hsize hf fuel msg q ko = .ok (r, s))
    (hcover : (pMul E k (GE E)).1.val / E.n < E.h) :
    pubkey_recovery E dd hf msg (.tup r s)
        = .ok (_pubkey_recovery E (int_from_bits E (hf (msgBytes msg))) r s) ∧
      pMul E q (GE E)
        ∈ _pubkey_recovery E (int_from_bits E (hf (msgBytes msg))) r s := by
  obtain ⟨⟨hq0, hqn⟩, k', hko', ⟨hk0, hkn⟩, hsg⟩ := sign_inv_full hsig
  have hkeq : k' = k := by
    have h := hko'.symm.trans hko
    injection h
  rw [hkeq] at hk0 hkn hsg
  have hnpos : 0 < E.n := hn.pos
  obtain ⟨hr, hrne, hs0ne, hscases⟩ := _sign_inv hsg
  have hr0 : 0 < r := Nat.pos_of_ne_zero hrne
  have hrn : r < E.n := by
    rw [hr]
    exact Nat.mod_lt _ hnpos
  have hs₀lt : mod_inv k E.n
      * (int_from_bits E (hf (msgBytes msg)) + r * q) % E.n < E.n :=
    Nat.mod_lt _ hnpos
  have hs0 : 0 < s := by rcases hscases with h | h <;> omega
  have hsn : s < E.n := by rcases hscases with h | h <;> omega
  have hcs : _check_sig E r s = .ok () := by
    simp only [_check_sig,
      if_neg (not_not_intro (show 0 < r ∧ r < E.n from ⟨hr0, hrn⟩)),
      if_neg (not_not_intro (show 0 < s ∧ s < E.n from ⟨hs0, hsn⟩))]
  exact ⟨by simp only [pubkey_recovery, hcs],
    _pubkey_recovery_finds hΔ hno2 hG hordt hn hn2 hq0 hqn hk0 hkn hsg hcover⟩

/-- A stub HMAC returning a constant digest, for concrete runs. -/
def hmConst (o : List Nat) : HmacF := fun _ _ => o

instance (E : CurveParams) (P : Pt E) : Decidable (strictPt E P) :=
  decidable_of_iff (P.2 ≠ 0 ∧ (WE E).Equation P.1 P.2) Iff.rfl

instance : NeZero E1.p := ⟨by decide⟩

instance : Fintype (Pt E1) :=
  inferInstanceAs (Fintype (ZMod E1.p × ZMod E1.p))

/-- C3 (counterexample): on the cofactor-1 curve `E1` with `n = 7 < p = 11`,
the message hashing to `c = 0` under private key `d = 1` derives the nonce
`k = 2`, whose point has `x(k·G) = 10 ≥ n`; `sign` succeeds with `(3, 2)`
but the recovery loop only tries `x = r + j·n` for `j < h = 1`, so the
returned list is empty and does not contain `d·G` — refuting the claim as
stated. -/
theorem pubkey_recovery_misses_signer_cex :
    sign E1 (hmConst [65]) 1 (constBytes [0]) 9 (.bytes []) 1 none
        = .ok (3, 2) ∧
      pubkey_recovery E1 derNone (constBytes [0]) (.bytes []) (.tup 3 2)
        = .ok ([] : List (Pt E1)) ∧
      ¬ pMul E1 1 (GE E1) ∈ ([] : List (Pt E1)) :=
  ⟨by decide, by decide, by decide⟩

set_option maxRecDepth 100000 in
set_option maxHeartbeats 1000000 in
/-- C1 (code bug): the low-s normalization of `_sign` compares `s` with
`ec.n / 2` computed by Python float division; for secp256k1 the binary64
value of `n/2` is exactly `2^255 > n/2`, so the in-range inputs
`c = 2^255 - Gx`, `d = 1`, `k = 1` make `_sign` return `s = 2^255`, which
exceeds `n/2` (`2·s > n`) — the claimed normalization `s ≤ n/2` is violated
by the code. -/
theorem low_s_float_bug :
    _sign secp256k1 (2 ^ 255 - secp256k1.Gx) 1 1
        = .ok (secp256k1.Gx, 2 ^ 255) ∧
      2 * 2 ^ 255 > secp256k1.n ∧
      lowSHalfDouble2 secp256k1.n = 2 ^ 256 ∧
      0 < 2 ^ 255 - secp256k1.Gx ∧ 2 ^ 255 - secp256k1.Gx < secp256k1.n ∧
      1 < secp256k1.n :=
  ⟨by decide, by decide, by decide, by decide, by decide, by decide⟩

/-! ### Witnesses: concrete instantiations of the theorems with hypotheses -/

theorem verify_after_sign_witness :
    sign E1 (hmConst [65]) 1 (constBytes [160]) 9 (.bytes []) 1 (some 2)
        = .ok (3, 3) ∧
      verify E1 derNone (ptoctNone E1) (constBytes [160]) (.bytes [])
        (.pt (pMul E1 1 (GE E1))) (.tup 3 3) = true := by
  have h₁ : (WE E1).Δ ≠ 0 := by decide
  have h₂ : ∀ x : ZMod E1.p, ¬ (WE E1).Equation x 0 := by decide
  have h₃ : strictPt E1 (GE E1) := by decide
  have h₄ : pMul E1 E1.n (GE E1) = inf E1 := by decide
  have h₅ : Nat.Prime E1.n := by norm_num [E1]
  have h₆ : E1.n ≠ 2 := by decide
  have h₇ : sign E1 (hmConst [65]) 1 (constBytes [160]) 9 (.bytes []) 1 (some 2)
      = .ok (3, 3) := by decide
  haveI : Fact (Nat.Prime E1.p) := ⟨by norm_num [E1]⟩
  exact ⟨h₇, verify_after_sign (E := E1) h₁ h₂ h₃ h₄ h₅ h₆ derNone (ptoctNone E1)
    (hmConst [65]) 1 (constBytes [160]) 9 (.bytes []) (some 2) h₇⟩

theorem pubkey_recovery_finds_signer_witness :
    pubkey_recovery E1 derNone (constBytes [160]) (.bytes []) (.tup 6 2)
        = .ok (_pubkey_recovery E1
            (int_from_bits E1 (constBytes [160] (msgBytes (.bytes [])))) 6 2) ∧
      pMul E1 3 (GE E1) ∈ _pubkey_recovery E1
        (int_from_bits E1 (constBytes [160] (msgBytes (.bytes [])))) 6 2 := by
  have h₁ : (WE E1).Δ ≠ 0 := by decide
  have h₂ : ∀ x : ZMod E1.p, ¬ (WE E1).Equation x 0 := by decide
  have h₃ : strictPt E1 (GE E1) := by decide
  have h₄ : pMul E1 E1.n (GE E1) = inf E1 := by decide
  have h₅ : Nat.Prime E1.n := by norm_num [E1]
  have h₆ : E1.n ≠ 2 := by decide
  have h₇ : nonceUsed E1 (hmConst [33]) 1 (constBytes [160]) 9 (.bytes []) 3 none
      = .ok 1 := by decide
  have h₈ : sign E1 (hmConst [33]) 1 (constBytes [160]) 9 (.bytes []) 3 none
      = .ok (6, 2) := by decide
  have h₉ : (pMul E1 1 (GE E1)).1.val / E1.n < E1.h := by decide
  haveI : Fact (Nat.Prime E1.p) := ⟨by norm_num [E1]⟩
  exact pubkey_recovery_finds_signer (E := E1) (k := 1) h₁ h₂ h₃ h₄ h₅ h₆
    derNone (hmConst [33]) 1 (constBytes [160]) 9 (.bytes []) none h₇ h₈ h₉

theorem sign_deterministic_witness :
    nonceUsed E1 (hmConst [33]) 1 (constBytes [160]) 9 (.bytes []) 3 none
        = .ok 1 ∧
      sign E1 (hmConst [33]) 1 (constBytes [160]) 9 (.bytes []) 3 none
        = sign E1 (hmConst [33]) 1 (constBytes [160]) 9 (.bytes []) 3 (some 1) :=
  ⟨by decide,
    (sign_deterministic E1 (hmConst [33]) 1 (constBytes [160]) 9
      (.bytes []) 3 5).2.2 1 (by decide)⟩

theorem rfc6979_matches_spec_witness :
    _rfc6979 E1 (hmConst [65]) 1 9 5 1 = .ok 2 ∧ 0 < 2 ∧ 2 < E1.n :=
  ⟨by decide,
    ((rfc6979_matches_spec E1 (hmConst [65]) 1 9 5 1).2 2 (by decide)).1,
    ((rfc6979_matches_spec E1 (hmConst [65]) 1 9 5 1).2 2 (by decide)).2⟩

theorem sign_rejects_bad_nonce_witness :
    sign E1 (hmConst [65]) 1 (constBytes [160]) 9 (.bytes []) 1 (some 0)
      = .error .invalidRange :=
  sign_rejects_bad_nonce E1 (hmConst [65]) 1 (constBytes [160]) 9 (.bytes [])
    (by decide) (by decide)

theorem pubkey_y_zero_infinite_witness :
    is_on_curve E1 ((5 : ZMod E1.p), 0) = true ∧
      _verify E1 derNone (ptoctNone E1) (constBytes [0]) (.bytes [])
        (.pt ((5 : ZMod E1.p), 0)) (.tup 1 1) = .error .infinitePubKey ∧
      verify E1 derNone (ptoctNone E1) (constBytes [0]) (.bytes [])
        (.pt ((5 : ZMod E1.p), 0)) (.tup 1 1) = false :=
  pubkey_y_zero_infinite E1 derNone (ptoctNone E1) (constBytes [0])
    (.bytes []) 5 (by decide) (by decide)

theorem pubkey_recovery_error_policy_witness :
    pubkey_recovery E1 derNone (constBytes [0]) (.bytes []) (.tup 0 5)
        = .error .invalidRange ∧
      pubkey_recovery E1 derNone (constBytes [0]) (.bytes []) (.tup 3 2)
        = .ok (_pubkey_recovery E1
            (int_from_bits E1 (constBytes [0] (msgBytes (.bytes [])))) 3 2) ∧
      _pubkey_recovery E1 0 3 2 = [] :=
  ⟨(pubkey_recovery_error_policy E1 derNone (constBytes [0]) (.bytes []) 0 5).1
      (by decide),
    (pubkey_recovery_error_policy E1 derNone (constBytes [0]) (.bytes []) 3 2).2.2.1
      (by decide) (by decide),
    (pubkey_recovery_error_policy E1 derNone (constBytes [0]) (.bytes []) 3 2).2.2.2.2
      0 (by decide)⟩

end Btclib
